import Mathlib

/-!
Shallow embedding of the short-link service (app/services/url_service.py,
app/database/repository.py, app/utils/validators.py,
app/utils/short_url_generator.py, app/models/url.py).

Strings are modelled as lists of characters.  Python's urllib.parse
machinery is embedded on the fragment the repository exercises
(urlparse / urlunparse, without the ValueError paths for malformed
IPv6 brackets and without the NFKC netloc check, which raise instead
of returning).  Character classes (whitespace, lower-casing) are
modelled on ASCII, which is the alphabet the code's own constants and
checks use.
-/

namespace Urls

abbrev Str := List Char

/-- Python str.strip default whitespace (ASCII part). -/
def pyWS (c : Char) : Bool :=
  c = ' ' || c = '\t' || c = '\n' || c = '\x0d' || c = '\x0b' || c = '\x0c'

/-- Model of url.strip() in normalize_url. -/
def stripWS (l : Str) : Str :=
  ((l.dropWhile pyWS).reverse.dropWhile pyWS).reverse

/-- Model of str.lower() on ASCII. -/
def lowerL (l : Str) : Str := l.map Char.toLower

/-- Characters urllib.parse removes from a URL before splitting. -/
def ctlChar (c : Char) : Bool := c = '\t' || c = '\x0d' || c = '\n'

def removeCtl (l : Str) : Str := l.filter (fun c => !ctlChar c)

/-- WHATWG C0-control-or-space class, lstripped by urlsplit. -/
def c0OrSpace (c : Char) : Bool := c.toNat ≤ 32

/-- Split a list at the first occurrence of a character. -/
def splitAtFirst (ch : Char) : Str → Option (Str × Str)
  | [] => none
  | c :: rest =>
    if c = ch then some ([], rest)
    else
      match splitAtFirst ch rest with
      | some (a, b) => some (c :: a, b)
      | none => none

/-- Split a list at the last occurrence of a character. -/
def splitAtLast (ch : Char) (l : Str) : Option (Str × Str) :=
  match splitAtFirst ch l.reverse with
  | some (a, b) => some (b.reverse, a.reverse)
  | none => none

/-- Characters allowed after the first one in a URL scheme. -/
def schemeChar (c : Char) : Bool :=
  c.isAlpha || c.isDigit || c = '+' || c = '-' || c = '.'

/-- Scheme detection of urllib.parse.urlsplit: the text before the first
colon is a scheme when it starts with an ASCII letter and continues with
scheme characters; it is returned lower-cased.  Otherwise the scheme is
empty and the URL is untouched. -/
def splitScheme (url : Str) : Str × Str :=
  match splitAtFirst ':' url with
  | some (pre, post) =>
    match pre with
    | [] => ([], url)
    | c0 :: rest =>
      if c0.isAlpha ∧ rest.all schemeChar then (lowerL (c0 :: rest), post)
      else ([], url)
  | none => ([], url)

/-- Delimiters ending the netloc portion. -/
def netlocDelim (c : Char) : Bool := c = '/' || c = '?' || c = '#'

/-- Model of urllib.parse._splitnetloc. -/
def splitNetloc (l : Str) : Str × Str :=
  (l.takeWhile (fun c => !netlocDelim c), l.dropWhile (fun c => !netlocDelim c))

/-- Model of urllib.parse._splitparams: the params are the text after the
first semicolon at or after the last slash of the path (or after the first
semicolon when the path has no slash). -/
def splitparams (p : Str) : Str × Str :=
  if '/' ∈ p then
    match splitAtLast '/' p with
    | some (a, b) =>
      match splitAtFirst ';' b with
      | some (b1, b2) => (a ++ '/' :: b1, b2)
      | none => (p, [])
    | none => (p, [])
  else
    match splitAtFirst ';' p with
    | some (p1, p2) => (p1, p2)
    | none => (p, [])

structure ParseResult where
  scheme : Str
  netloc : Str
  path : Str
  params : Str
  query : Str
  fragment : Str
deriving DecidableEq

/-- The fragment split of urlsplit: at the first hash mark, if any. -/
def fragSplit (l : Str) : Str × Str :=
  match splitAtFirst '#' l with
  | some (a, b) => (a, b)
  | none => (l, [])

/-- The query split of urlsplit: at the first question mark, if any. -/
def querySplit (l : Str) : Str × Str :=
  match splitAtFirst '?' l with
  | some (a, b) => (a, b)
  | none => (l, [])

/-- The params split of urlparse: only when a semicolon is present. -/
def paramSplit (l : Str) : Str × Str :=
  if ';' ∈ l then splitparams l else (l, [])

/-- The stages of urlparse after the scheme and the // marker. -/
def pipeTail (sch ft : Str) : ParseResult :=
  let netloc := (splitNetloc ft).1
  let rest1 := (splitNetloc ft).2
  let rest2 := (fragSplit rest1).1
  let fragment := (fragSplit rest1).2
  let rest3 := (querySplit rest2).1
  let query := (querySplit rest2).2
  let path := (paramSplit rest3).1
  let params := (paramSplit rest3).2
  ⟨sch, netloc, path, params, query, fragment⟩

/-- Model of urllib.parse.urlparse (allow_fragments = True). -/
def urlparse (url0 : Str) : ParseResult :=
  let url := removeCtl (url0.dropWhile c0OrSpace)
  let (scheme, rest0) := splitScheme url
  let (netloc, rest1) :=
    if rest0.take 2 = ['/', '/'] then splitNetloc (rest0.drop 2)
    else ([], rest0)
  let (rest2, fragment) := fragSplit rest1
  let (rest3, query) := querySplit rest2
  let (path, params) := paramSplit rest3
  ⟨scheme, netloc, path, params, query, fragment⟩

/-- Schemes for which urlunsplit always reinstates the // netloc marker. -/
def uses_netloc : List Str :=
  ["", "ftp", "http", "gopher", "nntp", "telnet", "imap", "wais", "file",
   "mms", "https", "shttp", "snews", "prospero", "rtsp", "rtsps", "rtspu",
   "rsync", "svn", "svn+ssh", "sftp", "nfs", "git", "git+ssh", "ws",
   "wss"].map String.toList

/-- Model of urllib.parse.urlunsplit. -/
def urlunsplit (scheme netloc url0 query fragment : Str) : Str :=
  let url1 :=
    if netloc ≠ [] ∨ (scheme ≠ [] ∧ scheme ∈ uses_netloc ∧ url0.take 2 ≠ ['/', '/']) then
      let u := if url0 ≠ [] ∧ url0.head? ≠ some '/' then '/' :: url0 else url0
      '/' :: '/' :: (netloc ++ u)
    else url0
  let url2 := if scheme ≠ [] then scheme ++ ':' :: url1 else url1
  let url3 := if query ≠ [] then url2 ++ '?' :: query else url2
  if fragment ≠ [] then url3 ++ '#' :: fragment else url3

/-- Model of urllib.parse.urlunparse. -/
def urlunparse (r : ParseResult) : Str :=
  let u := if r.params ≠ [] then r.path ++ ';' :: r.params else r.path
  urlunsplit r.scheme r.netloc u r.query r.fragment

/-- The text urlunparse emits after the netloc: the path with its
params, the query and the fragment with their markers. -/
def tailOf (r : ParseResult) : Str :=
  (if r.params ≠ [] then r.path ++ ';' :: r.params else r.path) ++
    (if r.query ≠ [] then '?' :: r.query else []) ++
    (if r.fragment ≠ [] then '#' :: r.fragment else [])

def httpL : Str := ['h', 't', 't', 'p']
def httpsL : Str := ['h', 't', 't', 'p', 's']
def httpSlashes : Str := httpL ++ [':', '/', '/']
def httpsSlashes : Str := httpsL ++ [':', '/', '/']

/-- Suffix test matching Python str.endswith. -/
def endsL (suf l : Str) : Bool := decide (l.drop (l.length - suf.length) = suf)

/-- The default-port stripping step of URLValidator.normalize_url. -/
def stripDefaultPort (scheme nl : Str) : Str :=
  if endsL [':', '8', '0'] nl ∧ scheme = httpL then nl.take (nl.length - 3)
  else if endsL [':', '4', '4', '3'] nl ∧ scheme = httpsL then
    nl.take (nl.length - 4)
  else nl

/-- The scheme-defaulting step of URLValidator.normalize_url: after
stripping, a URL that does not start with http:// or https:// gets the
https:// prefix. -/
def ensureScheme (u : Str) : Str :=
  if u.take 7 = httpSlashes ∨ u.take 8 = httpsSlashes then u
  else httpsSlashes ++ u

/-- The components normalize_url reassembles: the parse of the stripped,
scheme-defaulted URL with the netloc lower-cased and the scheme's default
port stripped. -/
def normalizeParts (u : Str) : ParseResult :=
  let p := urlparse (ensureScheme (stripWS u))
  { p with netloc := stripDefaultPort p.scheme (lowerL p.netloc) }

/-- Model of URLValidator.normalize_url. -/
def normalize_url (u : Str) : Str := urlunparse (normalizeParts u)

/-! ## URLValidator.is_valid_url (app/utils/validators.py)

The DNS lookup of _points_to_private_ip is modelled as an environment
function dns : Str -> Option Str giving the point-in-time resolution
(none models socket.gaierror). -/

def ALLOWED_SCHEMES : List Str := ["http", "https"].map String.toList

def BLOCKED_SCHEMES : List Str :=
  ["javascript", "data", "vbscript", "file", "ftp"].map String.toList

def BLACKLISTED_DOMAINS : List Str :=
  ["malicious-site.com", "phishing-example.com"].map String.toList

def _check_length (maxLen : Nat) (url : Str) : Bool :=
  0 < url.length && url.length ≤ maxLen

def _check_scheme (scheme : Str) : Bool :=
  let s := lowerL scheme
  if s ∈ BLOCKED_SCHEMES then false
  else decide (s ∈ ALLOWED_SCHEMES)

/-- ASCII alphanumeric, the [a-zA-Z0-9] class of the domain pattern. -/
def isAlnumA (c : Char) : Bool := c.isAlpha || c.isDigit

/-- One label of the domain pattern:
[a-zA-Z0-9]([a-zA-Z0-9-]{0,61}[a-zA-Z0-9])? . -/
def labelOK : Str → Bool
  | [] => false
  | c :: rest =>
    isAlnumA c &&
    (rest.isEmpty ||
      (rest.length ≤ 62 && isAlnumA (rest.getLastD 'a') &&
        rest.dropLast.all (fun d => isAlnumA d || d = '-')))

/-- Split on a character (Python str.split semantics). -/
def splitOnC (ch : Char) : Str → List Str
  | [] => [[]]
  | c :: rest =>
    let r := splitOnC ch rest
    if c = ch then [] :: r
    else
      match r with
      | h :: t => (c :: h) :: t
      | [] => [[c]]

/-- The anchored domain regular expression of _check_domain, as labels
separated by dots. -/
def domainRegexOK (d : Str) : Bool := (splitOnC '.' d).all labelOK

def natOfDigits (l : Str) : Nat :=
  l.foldl (fun n c => n * 10 + (c.toNat - 48)) 0

/-- One octet of an IPv4 literal as ipaddress accepts it: decimal digits,
at most three of them, no leading zero, value at most 255. -/
def octetOK (l : Str) : Bool :=
  l.all Char.isDigit && 0 < l.length && l.length ≤ 3 &&
    (l.length = 1 || l.head? ≠ some '0') && natOfDigits l ≤ 255

/-- Whether ipaddress.ip_address accepts the text (the pre-colon domain can
never contain a colon, so only the IPv4 form is reachable). -/
def isIPv4str (d : Str) : Bool :=
  let parts := splitOnC '.' d
  parts.length = 4 && parts.all octetOK

def parseIPv4 (d : Str) : Option Nat :=
  if isIPv4str d then
    some ((splitOnC '.' d).foldl (fun n p => n * 256 + natOfDigits p) 0)
  else none

/-- Membership in the PRIVATE_IP_RANGES networks, on the 32-bit value. -/
def inPrivateRanges (ip : Nat) : Bool :=
  ip / 2 ^ 24 = 10 || ip / 2 ^ 20 = 2753 || ip / 2 ^ 16 = 49320 ||
    ip / 2 ^ 24 = 127 || ip / 2 ^ 16 = 43518

def _check_domain (netloc : Str) : Bool :=
  if netloc.isEmpty then false
  else
    let domain := netloc.takeWhile (fun c => c ≠ ':')
    if domain.isEmpty || domain.head? = some '.' || domain.getLast? = some '.'
    then false
    else if isIPv4str domain then true
    else domainRegexOK domain

def _is_blacklisted (netloc : Str) : Bool :=
  decide (lowerL (netloc.takeWhile (fun c => c ≠ ':')) ∈ BLACKLISTED_DOMAINS)

def _points_to_private_ip (dns : Str → Option Str) (netloc : Str) : Bool :=
  let domain := netloc.takeWhile (fun c => c ≠ ':')
  match dns domain with
  | none => false
  | some ipStr =>
    match parseIPv4 ipStr with
    | none => false
    | some ip => inPrivateRanges ip

/-- Model of URLValidator.is_valid_url. -/
def is_valid_url (dns : Str → Option Str) (maxLen : Nat) (url : Str) : Bool :=
  if !_check_length maxLen url then false
  else
    let p := urlparse url
    if !_check_scheme p.scheme then false
    else if !_check_domain p.netloc then false
    else if _is_blacklisted p.netloc then false
    else if _points_to_private_ip dns p.netloc then false
    else true

/-! ## ShortURLGenerator (app/utils/short_url_generator.py)

The cryptographic randomness of secrets.choice is modelled as an
environment stream rand : Nat -> Nat of choice indices, consumed at a
cursor position that advances by one per generated character. -/

def ascii_letters : Str :=
  "abcdefghijklmnopqrstuvwxyzABCDEFGHIJKLMNOPQRSTUVWXYZ".toList

def digitChars : Str := "0123456789".toList

def CHARS : Str := ascii_letters ++ digitChars

def confusingChars : Str := "il1Lo0O".toList

def SAFE_CHARS : Str := CHARS.filter (fun c => decide (c ∉ confusingChars))

/-- Model of ShortURLGenerator.generate_random: a code of the configured
length over SAFE_CHARS, together with the advanced randomness cursor. -/
def generate_random (rand : Nat → Nat) (length pos : Nat) : Str × Nat :=
  ((List.range length).map
      (fun i => SAFE_CHARS.getD (rand (pos + i) % SAFE_CHARS.length) 'a'),
    pos + length)

/-- The mutable state of the service's ShortURLGenerator instance. -/
structure GenState where
  length : Nat
  pos : Nat
deriving DecidableEq

/-! ## Data model (app/models/url.py)

Datetime-valued attributes are dynamically typed in Python: a column
read from the store holds a real datetime, but the cache rebuild path
assigns ISO strings to the same attributes.  TimeVal captures both. -/

inductive TimeVal where
  | dt (t : Int)
  | tstr (s : Str)
  | null
deriving DecidableEq

/-- Whether the value is one a stored row can hold (datetime or NULL). -/
def TimeVal.isStored : TimeVal → Bool
  | .tstr _ => false
  | _ => true

/-- Abstract rendering of datetime.isoformat on a UTC timestamp.  Only the
fact that the serialized form is a string, not a datetime, matters. -/
def isoformat (t : Int) : Str := (toString t).toList

/-- Model of the URLModel row / ORM object. -/
structure URLModel where
  id : Int
  original_url : Str
  short_code : Str
  created_at : TimeVal
  updated_at : TimeVal
  expires_at : TimeVal
  is_active : Bool
  click_count : Int
  last_accessed_at : TimeVal
  creator_ip : Option Str
  user_agent : Option Str
  description : Option Str
  custom_alias : Option Str
deriving DecidableEq

/-- Model of URLModel.is_expired, which compares
datetime.now(timezone.utc) > expires_at.  Comparing a datetime with the
string a cache rebuild left behind raises TypeError, modelled as none. -/
def is_expiredO (now : Int) : TimeVal → Option Bool
  | .null => some false
  | .dt t => some (decide (now > t))
  | .tstr _ => none

/-- The dictionary produced by URLModel.to_dict and round-tripped through
json.dumps/json.loads (all values are strings, integers, booleans or
null, so the JSON round trip is lossless on them). -/
structure CacheDict where
  id : Int
  original_url : Str
  short_code : Str
  created_at : Option Str
  updated_at : Option Str
  expires_at : Option Str
  is_active : Bool
  click_count : Int
  last_accessed_at : Option Str
  creator_ip : Option Str
  user_agent : Option Str
  description : Option Str
  custom_alias : Option Str
deriving DecidableEq

/-- The isoformat-if-truthy conversion of to_dict on a datetime field. -/
def TimeVal.toIso : TimeVal → Option Str
  | .dt t => some (isoformat t)
  | .tstr s => some s
  | .null => none

/-- Model of URLModel.to_dict. -/
def to_dict (m : URLModel) : CacheDict :=
  { id := m.id
    original_url := m.original_url
    short_code := m.short_code
    created_at := m.created_at.toIso
    updated_at := m.updated_at.toIso
    expires_at := m.expires_at.toIso
    is_active := m.is_active
    click_count := m.click_count
    last_accessed_at := m.last_accessed_at.toIso
    creator_ip := m.creator_ip
    user_agent := m.user_agent
    description := m.description
    custom_alias := m.custom_alias }

/-- The URLModel(**dict) rebuild of _get_cached_url: every field is copied
verbatim, so the datetime attributes come back as the ISO strings the
dictionary holds, not as datetimes. -/
def fromCacheDict (d : CacheDict) : URLModel :=
  { id := d.id
    original_url := d.original_url
    short_code := d.short_code
    created_at := match d.created_at with | some s => .tstr s | none => .null
    updated_at := match d.updated_at with | some s => .tstr s | none => .null
    expires_at := match d.expires_at with | some s => .tstr s | none => .null
    is_active := d.is_active
    click_count := d.click_count
    last_accessed_at :=
      match d.last_accessed_at with | some s => .tstr s | none => .null
    creator_ip := d.creator_ip
    user_agent := d.user_agent
    description := d.description
    custom_alias := d.custom_alias }

/-! ## Repository (app/database/repository.py)

The relational table is a list of rows, the Redis cache an association
list from keys to the JSON-round-tripped dictionaries, present only when
a CacheManager was configured (the cache argument is Optional and
defaults to None). -/

structure RepoState where
  db : List URLModel
  nextId : Int
  cache : Option (List (Str × CacheDict))
deriving DecidableEq

def cacheKeyFor (code : Str) : Str := ("url:".toList) ++ code

/-- Redis SET: replace any entry under the key. -/
def cacheSet (key : Str) (d : CacheDict) (c : List (Str × CacheDict)) :
    List (Str × CacheDict) :=
  (key, d) :: c.filter (fun e => e.1 ≠ key)

def cacheGet (key : Str) (c : List (Str × CacheDict)) : Option CacheDict :=
  (c.find? (fun e => e.1 = key)).map (·.2)

def cacheDel (key : Str) (c : List (Str × CacheDict)) :
    List (Str × CacheDict) :=
  c.filter (fun e => e.1 ≠ key)

/-- Model of URLRepository._cache_url (TTL 3600, not modelled further). -/
def _cache_url (m : URLModel) (c : List (Str × CacheDict)) :
    List (Str × CacheDict) :=
  cacheSet (cacheKeyFor m.short_code) (to_dict m) c

/-- Model of URLRepository._get_cached_url. -/
def _get_cached_url (code : Str) (c : List (Str × CacheDict)) :
    Option URLModel :=
  (cacheGet (cacheKeyFor code) c).map fromCacheDict

def _invalidate_cache (code : Str) (st : RepoState) : RepoState :=
  match st.cache with
  | none => st
  | some c => { st with cache := some (cacheDel (cacheKeyFor code) c) }

/-- Model of SQLAlchemy scalar_one_or_none on the matching rows; with more
than one match it raises, which the repository's except clause turns into
None as well. -/
def scalarOneOrNone (l : List URLModel) : Option URLModel :=
  match l with
  | [m] => some m
  | _ => none

/-- The direct store query of get_url_by_short_code. -/
def dbGetCode (code : Str) (db : List URLModel) : Option URLModel :=
  scalarOneOrNone (db.filter (fun r => r.short_code = code))

/-- The store query of get_url_by_custom_alias. -/
def dbGetAlias (alias0 : Str) (db : List URLModel) : Option URLModel :=
  scalarOneOrNone (db.filter (fun r => r.custom_alias = some alias0))

/-- Model of URLRepository.get_url_by_short_code: cache first, then the
store, populating the cache only when a row was found. -/
def get_url_by_short_code (code : Str) (st : RepoState) :
    Option URLModel × RepoState :=
  match st.cache with
  | some c =>
    match _get_cached_url code c with
    | some m => (some m, st)
    | none =>
      match dbGetCode code st.db with
      | some m => (some m, { st with cache := some (_cache_url m c) })
      | none => (none, st)
  | none => (dbGetCode code st.db, st)

/-- Model of URLRepository.get_url_by_custom_alias: the store only, no
cache involvement. -/
def get_url_by_custom_alias (alias0 : Str) (st : RepoState) :
    Option URLModel :=
  dbGetAlias alias0 st.db

/-- The url_data dictionary handed to create_url by the service. -/
structure UrlData where
  original_url : Str
  short_code : Str
  expires_at : Option Int
  creator_ip : Option Str
  user_agent : Option Str
  description : Option Str
  custom_alias : Option Str
deriving DecidableEq

/-- Error conditions, mirroring app/exceptions/custom_exceptions.py. -/
inductive Err where
  | notFound (k : Str)
  | expired (k : Str)
  | alreadyExists (k : Str)
  | generationFailed
  | invalidURL (u : Str)
  | tooLong
  | databaseError
  | pyTypeError
deriving DecidableEq

/-- Model of URLRepository.create_url: a uniqueness violation on
short_code or custom_alias rolls back and surfaces ShortURLExistsError;
otherwise the row is inserted with the column defaults (id assigned by
the store, timestamps from now, is_active true, click_count 0) and the
cache is populated when configured. -/
def create_url (d : UrlData) (now : Int) (st : RepoState) :
    Except Err URLModel × RepoState :=
  if st.db.any (fun r => r.short_code = d.short_code) then
    (.error (.alreadyExists d.short_code), st)
  else if (match d.custom_alias with
           | some a => st.db.any (fun r => r.custom_alias = some a)
           | none => false) then
    (.error (.alreadyExists (d.custom_alias.getD [])), st)
  else
    let m : URLModel :=
      { id := st.nextId
        original_url := d.original_url
        short_code := d.short_code
        created_at := .dt now
        updated_at := .dt now
        expires_at := match d.expires_at with | some t => .dt t | none => .null
        is_active := true
        click_count := 0
        last_accessed_at := .null
        creator_ip := d.creator_ip
        user_agent := d.user_agent
        description := d.description
        custom_alias := d.custom_alias }
    let cache' :=
      match st.cache with
      | some c => some (_cache_url m c)
      | none => none
    (.ok m, { db := st.db ++ [m], nextId := st.nextId + 1, cache := cache' })

/-- Model of URLRepository.increment_click_count: an atomic UPDATE of the
rows whose short_code matches, bumping click_count and touching
last_accessed_at (updated_at follows the column's onupdate); the fault
flag injects the except-branch (store error), which rolls back and
returns False.  The cache entry is invalidated on the success path. -/
def increment_click_count (code : Str) (now : Int) (fault : Bool)
    (st : RepoState) : Bool × RepoState :=
  if fault then (false, st)
  else
    let matched := st.db.countP (fun r => r.short_code = code)
    let db' := st.db.map (fun r =>
      if r.short_code = code then
        { r with click_count := r.click_count + 1
                 last_accessed_at := .dt now
                 updated_at := .dt now }
      else r)
    (decide (0 < matched), _invalidate_cache code { st with db := db' })

/-- Model of URLRepository.deactivate_url. -/
def repo_deactivate_url (code : Str) (now : Int) (st : RepoState) :
    Bool × RepoState :=
  let matched := st.db.countP (fun r => r.short_code = code)
  let db' := st.db.map (fun r =>
    if r.short_code = code then
      { r with is_active := false, updated_at := .dt now }
    else r)
  (decide (0 < matched), _invalidate_cache code { st with db := db' })

/-- Model of URLRepository.delete_url. -/
def repo_delete_url (code : Str) (st : RepoState) : Bool × RepoState :=
  let matched := st.db.countP (fun r => r.short_code = code)
  let db' := st.db.filter (fun r => r.short_code ≠ code)
  (decide (0 < matched), _invalidate_cache code { st with db := db' })

/-- Eligibility of a row for cleanup_expired_urls: expires_at not NULL,
in the past, and the row still active. -/
def expiredActiveB (now : Int) (r : URLModel) : Bool :=
  (match r.expires_at with | .dt t => decide (t < now) | _ => false) &&
    r.is_active

/-- Model of URLRepository.cleanup_expired_urls: a bulk UPDATE flipping
the eligible rows inactive and returning the affected row count. -/
def cleanup_expired_urls (now : Int) (st : RepoState) : Int × RepoState :=
  let matched := st.db.countP (expiredActiveB now)
  let db' := st.db.map (fun r =>
    if expiredActiveB now r then
      { r with is_active := false, updated_at := .dt now }
    else r)
  ((matched : Int), { st with db := db' })

/-! ## Allocation service (app/services/url_service.py)

Configuration values are the defaults of app/config.py. -/

def url_expiry_days : Int := 365
def max_url_length : Nat := 2048
def short_url_length : Nat := 6

/-- Model of URLService.resolve_short_url: look up by code, fall back to
the custom alias, treat missing and inactive records as NotFound, expired
ones as Expired, then increment the click counter under the lookup key
and return the target URL. -/
def resolve_short_url (k : Str) (now : Int) (fault : Bool) (st : RepoState) :
    Except Err Str × RepoState :=
  let (m1, st1) := get_url_by_short_code k st
  let m2 :=
    match m1 with
    | some m => some m
    | none => get_url_by_custom_alias k st1
  match m2 with
  | none => (.error (.notFound k), st1)
  | some m =>
    if !m.is_active then (.error (.notFound k), st1)
    else
      match is_expiredO now m.expires_at with
      | none => (.error .pyTypeError, st1)
      | some true => (.error (.expired k), st1)
      | some false =>
        let (_, st2) := increment_click_count k now fault st1
        (.ok m.original_url, st2)

/-- Model of URLService.deactivate_url: only the code lookup guards the
NotFound, with no alias fallback. -/
def service_deactivate_url (k : Str) (now : Int) (st : RepoState) :
    Except Err Bool × RepoState :=
  let (m, st1) := get_url_by_short_code k st
  match m with
  | none => (.error (.notFound k), st1)
  | some _ =>
    let (b, st2) := repo_deactivate_url k now st1
    (.ok b, st2)

/-- Model of URLService.delete_url: only the code lookup guards the
NotFound, with no alias fallback. -/
def service_delete_url (k : Str) (st : RepoState) :
    Except Err Bool × RepoState :=
  let (m, st1) := get_url_by_short_code k st
  match m with
  | none => (.error (.notFound k), st1)
  | some _ =>
    let (b, st2) := repo_delete_url k st1
    (.ok b, st2)

/-- One bounded round of the random-code loop: generate a candidate at
the current length, check it via get_url_by_short_code, return the first
free one. -/
def genLoop (rand : Nat → Nat) (len : Nat) :
    Nat → Nat → RepoState → Option Str × Nat × RepoState
  | 0, pos, st => (none, pos, st)
  | n + 1, pos, st =>
    let c := (generate_random rand len pos).1
    let pos' := (generate_random rand len pos).2
    let res := get_url_by_short_code c st
    match res.1 with
    | some _ => genLoop rand len n pos' res.2
    | none => (some c, pos', res.2)

/-- Model of URLService._generate_unique_short_code.  A truthy custom
alias is checked once against get_url_by_custom_alias and never retried;
otherwise up to 100 candidates are tried at the generator's length, the
generator's length field is then incremented in place, one further
100-candidate round runs, and exhaustion raises
ShortURLGenerationError.  The returned GenState is the service
generator's state after the call. -/
def _generate_unique_short_code (rand : Nat → Nat) (alias? : Option Str)
    (g : GenState) (st : RepoState) : Except Err Str × GenState × RepoState :=
  if alias?.getD [] ≠ [] then
    let a := alias?.getD []
    match get_url_by_custom_alias a st with
    | some _ => (.error (.alreadyExists a), g, st)
    | none => (.ok a, g, st)
  else
    match genLoop rand g.length 100 g.pos st with
    | (some c, pos', st') => (.ok c, ⟨g.length, pos'⟩, st')
    | (none, pos1, st1) =>
      match genLoop rand (g.length + 1) 100 pos1 st1 with
      | (some c, pos2, st2) => (.ok c, ⟨g.length + 1, pos2⟩, st2)
      | (none, pos2, st2) => (.error .generationFailed, ⟨g.length + 1, pos2⟩, st2)

/-- The creation request.  The HTTP schema layer is out of scope; the
target URL is the raw string the service validates. -/
structure URLCreateRequest where
  original_url : Str
  custom_alias : Option Str
  description : Option Str
  expires_in_days : Option Int
deriving DecidableEq

/-- Model of URLService.create_short_url.  _find_existing_url is the
source's stub that always returns None, so the dedup branch never
fires. -/
def create_short_url (dns : Str → Option Str) (rand : Nat → Nat)
    (req : URLCreateRequest) (creator_ip user_agent : Option Str)
    (now : Int) (g : GenState) (st : RepoState) :
    Except Err URLModel × GenState × RepoState :=
  if !is_valid_url dns max_url_length req.original_url then
    (.error (.invalidURL req.original_url), g, st)
  else if max_url_length < req.original_url.length then
    (.error .tooLong, g, st)
  else
    let normalized := normalize_url req.original_url
    match _generate_unique_short_code rand req.custom_alias g st with
    | (.error e, g', st') => (.error e, g', st')
    | (.ok code, g', st') =>
      let expires_at : Option Int :=
        if (match req.expires_in_days with
            | some days => decide (days ≠ 0)
            | none => false) then
          some (now + (req.expires_in_days.getD 0) * 86400)
        else if url_expiry_days > 0 then some (now + url_expiry_days * 86400)
        else none
      let d : UrlData :=
        { original_url := normalized
          short_code := code
          expires_at := expires_at
          creator_ip := creator_ip
          user_agent := user_agent
          description := req.description
          custom_alias := req.custom_alias }
      match create_url d now st' with
      | (.ok m, st2) => (.ok m, g', st2)
      | (.error e, st2) => (.error e, g', st2)

/-! ## Derived notions used by the claims -/

/-- The n consecutive candidate codes a round of the loop draws from the
randomness stream, starting at cursor pos. -/
def candidates (rand : Nat → Nat) (len pos n : Nat) : List Str :=
  (List.range n).map (fun i => (generate_random rand len (pos + i * len)).1)

/-- Whether a candidate code already has a stored row. -/
def taken (c : Str) (st : RepoState) : Bool := (dbGetCode c st.db).isSome

/-- The record a resolve-style lookup reaches: by code, then by alias. -/
def foundBy (k : Str) (db : List URLModel) : Option URLModel :=
  match dbGetCode k db with
  | some m => some m
  | none => dbGetAlias k db

/-- Eligibility for cleanup in the claim's terms: expires_at non-null,
earlier than the current time, and the row still active. -/
def eligibleP (now : Int) (r : URLModel) : Prop :=
  r.expires_at ≠ .null ∧ (∃ t, r.expires_at = .dt t ∧ t < now) ∧
    r.is_active = true

instance (now : Int) (r : URLModel) : Decidable (eligibleP now r) :=
  decidable_of_iff (expiredActiveB now r = true) (by
    unfold eligibleP expiredActiveB
    cases h : r.expires_at <;> simp [h])

/-- The suffix of a path after its last slash (the whole path when it has
no slash); the region _splitparams searches for a semicolon. -/
def afterLastSlash (p : Str) : Str :=
  match splitAtLast '/' p with
  | some (_, b) => b
  | none => p

/-- The well-formedness invariants urlparse guarantees for the component
values it returns on an input with an http:// or https:// prefix; they
are exactly what makes urlunparse o urlparse the identity. -/
def WFparts (r : ParseResult) : Prop :=
  (r.scheme = httpL ∨ r.scheme = httpsL) ∧
  (∀ c ∈ r.netloc, netlocDelim c = false ∧ ctlChar c = false) ∧
  (r.path = [] ∨ r.path.head? = some '/') ∧
  (∀ c ∈ r.path, c ≠ '#' ∧ c ≠ '?' ∧ ctlChar c = false) ∧
  (r.path = [] → r.params = []) ∧
  (∀ c ∈ r.params, c ≠ '#' ∧ c ≠ '?' ∧ c ≠ '/' ∧ ctlChar c = false) ∧
  (';' ∉ afterLastSlash r.path) ∧
  (∀ c ∈ r.query, c ≠ '#' ∧ ctlChar c = false) ∧
  (∀ c ∈ r.fragment, ctlChar c = false)

/-! ## Concrete fixtures used by witnesses and counterexamples -/

/-- A DNS environment in which no host resolves. -/
def dnsNone : Str → Option Str := fun _ => none

/-- A randomness stream that always picks the first safe character. -/
def randZ : Nat → Nat := fun _ => 0

def promoK : Str := "promo".toList
def abcK : Str := "abc123".toList
def urlOrigA : Str := "https://example.com".toList

/-- An active, never-expiring record reachable by code abc123 and by the
custom alias promo. -/
def urlA : URLModel :=
  { id := 1, original_url := urlOrigA, short_code := abcK
    created_at := .dt 0, updated_at := .dt 0, expires_at := .null
    is_active := true, click_count := 0, last_accessed_at := .null
    creator_ip := none, user_agent := none, description := none
    custom_alias := some promoK }

def stA : RepoState := { db := [urlA], nextId := 2, cache := none }

def ex1K : Str := "ex1".toList
def in1K : Str := "in1".toList
def noneK : Str := "zzz".toList

/-- Active but past its expiry. -/
def urlExp : URLModel :=
  { id := 1, original_url := urlOrigA, short_code := ex1K
    created_at := .dt 0, updated_at := .dt 0, expires_at := .dt 5
    is_active := true, click_count := 0, last_accessed_at := .null
    creator_ip := none, user_agent := none, description := none
    custom_alias := none }

/-- Deactivated and also past its expiry. -/
def urlInact : URLModel :=
  { id := 2, original_url := urlOrigA, short_code := in1K
    created_at := .dt 0, updated_at := .dt 0, expires_at := .dt 5
    is_active := false, click_count := 0, last_accessed_at := .null
    creator_ip := none, user_agent := none, description := none
    custom_alias := none }

def stC1 : RepoState := { db := [urlExp, urlInact], nextId := 3, cache := none }

def gs6 : GenState := { length := 6, pos := 0 }

def stEmptyN : RepoState := { db := [], nextId := 1, cache := none }

def aaa6 : Str := List.replicate 6 'a'
def aaa7 : Str := List.replicate 7 'a'

def rowA6 : URLModel :=
  { id := 1, original_url := urlOrigA, short_code := aaa6
    created_at := .dt 0, updated_at := .dt 0, expires_at := .null
    is_active := true, click_count := 0, last_accessed_at := .null
    creator_ip := none, user_agent := none, description := none
    custom_alias := none }

def rowA7 : URLModel := { rowA6 with id := 2, short_code := aaa7 }

/-- Every length-6 candidate of randZ collides here. -/
def stTaken6 : RepoState := { db := [rowA6], nextId := 3, cache := none }

/-- Every length-6 and length-7 candidate of randZ collides here. -/
def stTaken67 : RepoState := { db := [rowA6, rowA7], nextId := 3, cache := none }

/-- A cache holding the dictionary of urlA, over an empty store. -/
def stCacheHit : RepoState :=
  { db := [], nextId := 1
    cache := some [(cacheKeyFor abcK, to_dict urlA)] }

/-- An empty cache over a store holding urlA. -/
def stCacheMiss : RepoState :=
  { db := [urlA], nextId := 2, cache := some [] }

/-- The creation data of the C5 scenario: a row with an expiry. -/
def d5 : UrlData :=
  { original_url := urlOrigA, short_code := abcK
    expires_at := some 1700000000, creator_ip := none, user_agent := none
    description := none, custom_alias := none }

def st5 : RepoState := { db := [], nextId := 1, cache := some [] }

/-- The row create_url inserts for d5 at time 1600000000. -/
def m5 : URLModel :=
  { id := 1, original_url := urlOrigA, short_code := abcK
    created_at := .dt 1600000000, updated_at := .dt 1600000000
    expires_at := .dt 1700000000, is_active := true, click_count := 0
    last_accessed_at := .null, creator_ip := none, user_agent := none
    description := none, custom_alias := none }

/-- A creation request whose target passes validation and whose custom
alias is already taken in stA. -/
def reqPromo : URLCreateRequest :=
  { original_url := urlOrigA, custom_alias := some promoK
    description := none, expires_in_days := none }

/-- Rows for the cleanup fixture: eligible, not yet expired, inactive. -/
def rowClean1 : URLModel := { urlExp with id := 1, short_code := ("c1".toList) }
def rowClean2 : URLModel :=
  { urlExp with id := 2, short_code := ("c2".toList), expires_at := .dt 99 }
def rowClean3 : URLModel :=
  { urlInact with id := 3, short_code := ("c3".toList) }

def stClean : RepoState :=
  { db := [rowClean1, rowClean2, rowClean3], nextId := 4, cache := none }

/-- The C7 counterexample input: a netloc with a doubled default port. -/
def cex80 : Str := "http://example.com:80:80".toList

/-- The C7 witness input. -/
def u7 : Str := "http://Example.COM:8080/a/b;p?q#f".toList

instance {ε α : Type} [DecidableEq ε] [DecidableEq α] :
    DecidableEq (Except ε α) := fun a b =>
  match a, b with
  | .ok x, .ok y =>
    if h : x = y then .isTrue (by rw [h]) else .isFalse (by simp [h])
  | .error x, .error y =>
    if h : x = y then .isTrue (by rw [h]) else .isFalse (by simp [h])
  | .ok _, .error _ => .isFalse (by simp)
  | .error _, .ok _ => .isFalse (by simp)

/-! ## Helper lemmas -/

/-- Without a configured cache, get_url_by_short_code is the plain store
query and leaves the state unchanged. -/
theorem get_code_cacheless (code : Str) (st : RepoState)
    (hc : st.cache = none) :
    get_url_by_short_code code st = (dbGetCode code st.db, st) := by
  unfold get_url_by_short_code
  rw [hc]

/-! ## Claim C1 -/

/-- Claim C1: resolve fails with NotFound when neither the code nor the
alias lookup reaches a record, fails with NotFound when the reached
record is inactive (with no condition on its expiry, so also when it is
past expires_at), and fails with the distinct Expired condition when the
reached record is active but past its non-null expires_at.  Stated for a
repository without a configured cache, the service's default wiring. -/
theorem resolve_classifies (k : Str) (now : Int) (fault : Bool)
    (st : RepoState) (hc : st.cache = none) :
    (foundBy k st.db = none →
      (resolve_short_url k now fault st).1 = .error (.notFound k)) ∧
    (∀ m, foundBy k st.db = some m → m.is_active = false →
      (resolve_short_url k now fault st).1 = .error (.notFound k)) ∧
    (∀ m t, foundBy k st.db = some m → m.is_active = true →
      m.expires_at = .dt t → now > t →
      (resolve_short_url k now fault st).1 = .error (.expired k)) := by
  have hg := get_code_cacheless k st hc
  unfold resolve_short_url
  rw [hg]
  unfold foundBy get_url_by_custom_alias
  cases h1 : dbGetCode k st.db with
  | none =>
    cases h2 : dbGetAlias k st.db with
    | none => simp [h2]
    | some m =>
      refine ⟨by simp, ?_, ?_⟩
      · rintro m' rfl' ha
        cases rfl'
        simp [h2, ha]
      · rintro m' t rfl' ha he ht
        cases rfl'
        simp [h2, ha, he, is_expiredO, ht]
  | some m =>
    refine ⟨by simp, ?_, ?_⟩
    · rintro m' rfl' ha
      cases rfl'
      simp [ha]
    · rintro m' t rfl' ha he ht
      cases rfl'
      simp [ha, he, is_expiredO, ht]

/-- Witness for C1 at concrete states: a key matching nothing is
NotFound, a deactivated record that is also expired is NotFound, and an
active expired record is Expired. -/
theorem resolve_classifies_witness :
    (resolve_short_url noneK 10 false stC1).1 = .error (.notFound noneK) ∧
    (resolve_short_url in1K 10 false stC1).1 = .error (.notFound in1K) ∧
    (resolve_short_url ex1K 10 false stC1).1 = .error (.expired ex1K) := by
  refine ⟨?_, ?_, ?_⟩
  · exact (resolve_classifies noneK 10 false stC1 rfl).1 (by decide)
  · exact (resolve_classifies in1K 10 false stC1 rfl).2.1 urlInact
      (by decide) (by decide)
  · exact (resolve_classifies ex1K 10 false stC1 rfl).2.2 urlExp 5
      (by decide) (by decide) (by decide) (by decide)

/-! ## Claim C9 -/

/-- Counterexample to C9: the key promo is the custom alias of the stored
record, so Resolve finds it (and succeeds), yet deactivate and delete
raise NotFound for the very same key — they do not share Resolve's
not-found semantics. -/
theorem deactivate_delete_alias_cex :
    (service_deactivate_url promoK 100 stA).1 = .error (.notFound promoK) ∧
    (service_delete_url promoK stA).1 = .error (.notFound promoK) ∧
    (resolve_short_url promoK 100 false stA).1 ≠
      .error (.notFound promoK) := by
  refine ⟨by decide, by decide, by decide⟩

/-- Amended C9: deactivate and delete raise NotFound exactly when the
code lookup alone finds no record; unlike Resolve they never fall back
to the custom alias, so a key that is only an alias is rejected as
NotFound even though Resolve would find its record. -/
theorem deactivate_delete_notfound_amended (k : Str) (now : Int)
    (st : RepoState) (hc : st.cache = none) :
    ((service_deactivate_url k now st).1 = .error (.notFound k) ↔
      dbGetCode k st.db = none) ∧
    ((service_delete_url k st).1 = .error (.notFound k) ↔
      dbGetCode k st.db = none) := by
  have hg := get_code_cacheless k st hc
  unfold service_deactivate_url service_delete_url
  rw [hg]
  cases h1 : dbGetCode k st.db <;> simp

/-- Witness for the amended C9: both directions of both equivalences at
concrete states. -/
theorem deactivate_delete_notfound_amended_witness :
    (service_deactivate_url noneK 10 stC1).1 = .error (.notFound noneK) ∧
    (service_delete_url noneK stC1).1 = .error (.notFound noneK) ∧
    (service_deactivate_url ex1K 10 stC1).1 ≠ .error (.notFound ex1K) := by
  refine ⟨?_, ?_, ?_⟩
  · exact (deactivate_delete_notfound_amended noneK 10 stC1 rfl).1.mpr
      (by decide)
  · exact (deactivate_delete_notfound_amended noneK 10 stC1 rfl).2.mpr
      (by decide)
  · intro h
    exact absurd
      ((deactivate_delete_notfound_amended ex1K 10 stC1 rfl).1.mp h)
      (by decide)

/-! ## Claim C6 -/

theorem map_self {α : Type} (f : α → α) (l : List α)
    (h : ∀ x ∈ l, f x = x) : l.map f = l := by
  induction l with
  | nil => rfl
  | cons a t ih =>
    simp only [List.map_cons, h a (by simp)]
    rw [ih (fun x hx => h x (by simp [hx]))]

/-- Counterexample to C6: resolving the record of stA through its custom
alias promo succeeds, yet the state is unchanged — the stored record's
click counter stays at 0 instead of being incremented by one, because
the increment is keyed on the lookup key, which matches no short_code. -/
theorem resolve_alias_click_cex :
    (resolve_short_url promoK 100 false stA).1 = .ok urlOrigA ∧
    (resolve_short_url promoK 100 false stA).2 = stA ∧
    ((resolve_short_url promoK 100 false stA).2.db.map
        URLModel.click_count) = [0] := by
  refine ⟨by decide, by decide, by decide⟩

/-- Amended C6: on a valid resolution the service increments the click
counter (and touches last_accessed_at) of the rows whose short_code
equals the lookup key; when the record was reached through the
custom-alias fallback the key matches no short_code, the increment
affects no row and the state is unchanged; and the resolution verdict
never depends on the increment's outcome, so a failed increment (the
injected store fault) still yields the target URL. -/
theorem resolve_click_amended (k : Str) (now : Int) (st : RepoState)
    (hc : st.cache = none) :
    (∀ m, dbGetCode k st.db = some m → m.is_active = true →
      is_expiredO now m.expires_at = some false →
      (resolve_short_url k now false st).1 = .ok m.original_url ∧
      (resolve_short_url k now false st).2.db =
        st.db.map (fun r =>
          if r.short_code = k then
            { r with click_count := r.click_count + 1
                     last_accessed_at := .dt now
                     updated_at := .dt now }
          else r)) ∧
    (∀ m, dbGetCode k st.db = none → dbGetAlias k st.db = some m →
      m.is_active = true → is_expiredO now m.expires_at = some false →
      (∀ r ∈ st.db, r.short_code ≠ k) →
      (resolve_short_url k now false st).1 = .ok m.original_url ∧
      (resolve_short_url k now false st).2 = st) ∧
    (∀ fault m, foundBy k st.db = some m → m.is_active = true →
      is_expiredO now m.expires_at = some false →
      (resolve_short_url k now fault st).1 = .ok m.original_url) := by
  obtain ⟨db, nid, ca⟩ := st
  simp only [RepoState.mk.injEq] at hc ⊢
  subst hc
  refine ⟨?_, ?_, ?_⟩
  · intro m hm ha he
    unfold resolve_short_url
    rw [get_code_cacheless _ _ rfl]
    simp [hm, ha, he, increment_click_count, _invalidate_cache]
  · intro m hm hal ha he hnone
    unfold resolve_short_url
    rw [get_code_cacheless _ _ rfl]
    unfold get_url_by_custom_alias
    simp only [hm, ha, he]
    simp only [increment_click_count, _invalidate_cache]
    simp [hal, ha, he]
    exact map_self _ _ (fun r hr => by simp [hnone r hr])
  · intro fault m hm ha he
    unfold resolve_short_url
    rw [get_code_cacheless _ _ rfl]
    unfold foundBy at hm
    unfold get_url_by_custom_alias
    cases h1 : dbGetCode k db with
    | some m' =>
      rw [h1] at hm
      cases hm
      simp [ha, he]
    | none =>
      rw [h1] at hm
      simp only at hm
      simp [hm, ha, he]

/-- Witness for the amended C6: a code-keyed resolution increments the
row, an alias-keyed one leaves the state untouched, and an injected
increment fault still resolves. -/
theorem resolve_click_amended_witness :
    (resolve_short_url abcK 100 false stA).1 = .ok urlOrigA ∧
    (resolve_short_url abcK 100 false stA).2.db =
      [{ urlA with click_count := 1, last_accessed_at := .dt 100
                   updated_at := .dt 100 }] ∧
    (resolve_short_url promoK 100 false stA).2 = stA ∧
    (resolve_short_url abcK 100 true stA).1 = .ok urlOrigA := by
  have h1 := (resolve_click_amended abcK 100 stA rfl).1 urlA
    (by decide) (by decide) (by decide)
  have h2 := (resolve_click_amended promoK 100 stA rfl).2.1 urlA
    (by decide) (by decide) (by decide) (by decide) (by decide)
  have h3 := (resolve_click_amended abcK 100 stA rfl).2.2 true urlA
    (by decide) (by decide) (by decide)
  refine ⟨h1.1, ?_, h2.2, h3⟩
  rw [h1.2]
  decide

/-! ## Claim C8 -/

theorem eligible_iff (now : Int) (r : URLModel) :
    eligibleP now r ↔ expiredActiveB now r = true := by
  unfold eligibleP expiredActiveB
  cases h : r.expires_at <;> simp [h]

/-- Claim C8: cleanup_expired flips to inactive exactly the rows whose
expires_at is non-null and earlier than the current time and whose
is_active is true, returns the flipped count, and is idempotent: an
immediately following second run flips zero rows, returns 0 and leaves
the state unchanged. -/
theorem cleanup_expired_spec (now : Int) (st : RepoState) :
    ((cleanup_expired_urls now st).1 =
      ((st.db.filter (fun r => decide (eligibleP now r))).length : Int)) ∧
    ((cleanup_expired_urls now st).2.db =
      st.db.map (fun r =>
        if eligibleP now r then
          { r with is_active := false, updated_at := .dt now }
        else r)) ∧
    ((cleanup_expired_urls now (cleanup_expired_urls now st).2).1 = 0) ∧
    ((cleanup_expired_urls now (cleanup_expired_urls now st).2).2 =
      (cleanup_expired_urls now st).2) := by
  have hifs : ∀ r : URLModel,
      (if expiredActiveB now r then
        { r with is_active := false, updated_at := TimeVal.dt now }
      else r) =
      (if eligibleP now r then
        { r with is_active := false, updated_at := TimeVal.dt now }
      else r) := by
    intro r
    by_cases h : expiredActiveB now r = true
    · rw [if_pos h, if_pos ((eligible_iff now r).mpr h)]
    · rw [if_neg (by simp [h]), if_neg (fun hp => h ((eligible_iff now r).mp hp))]
  have hpost : ∀ r ∈ (cleanup_expired_urls now st).2.db,
      expiredActiveB now r = false := by
    intro r hr
    unfold cleanup_expired_urls at hr
    simp only [List.mem_map] at hr
    obtain ⟨r0, _, hr0⟩ := hr
    by_cases h0 : expiredActiveB now r0 = true
    · rw [if_pos h0] at hr0
      rw [← hr0]
      unfold expiredActiveB
      simp
    · rw [if_neg (by simp [h0])] at hr0
      rw [← hr0]
      simp at h0
      exact h0
  have key : ∀ st1 : RepoState,
      (∀ r ∈ st1.db, expiredActiveB now r = false) →
      cleanup_expired_urls now st1 = (0, st1) := by
    intro st1 h
    unfold cleanup_expired_urls
    rw [List.countP_eq_zero.mpr (fun r hr => by simp [h r hr])]
    rw [map_self _ _ (fun r hr => by rw [if_neg (by simp [h r hr])])]
    rfl
  refine ⟨?_, ?_, ?_, ?_⟩
  · unfold cleanup_expired_urls
    simp only [List.countP_eq_length_filter]
    congr 2
    apply List.filter_congr
    intro r _
    by_cases h : expiredActiveB now r = true
    · simp [h, (eligible_iff now r).mpr h]
    · have hne : ¬ eligibleP now r := fun hp => h ((eligible_iff now r).mp hp)
      simp only [Bool.not_eq_true] at h
      simp [h, hne]
  · unfold cleanup_expired_urls
    simp only []
    exact List.map_congr_left (fun r _ => hifs r)
  · rw [key _ hpost]
  · rw [key _ hpost]

/-! ## Claim C4 -/

/-- A row found by the code query has that code. -/
theorem dbGetCode_code (code : Str) (db : List URLModel) (m : URLModel)
    (h : dbGetCode code db = some m) : m.short_code = code := by
  unfold dbGetCode scalarOneOrNone at h
  cases hf : db.filter (fun r => decide (r.short_code = code)) with
  | nil => rw [hf] at h; cases h
  | cons a t =>
    cases t with
    | nil =>
      rw [hf] at h
      cases h
      have ha : m ∈ db.filter (fun r => decide (r.short_code = code)) := by
        rw [hf]; simp
      have := List.of_mem_filter ha
      simpa using this
    | cons b t2 => rw [hf] at h; cases h

/-- Claim C4: with a configured cache, get_url_by_short_code returns a
cached record immediately — the result does not depend on the store at
all — and leaves the state unchanged; on a cache miss it queries the
store, populating the cache exactly when a row was found; a not-found
result is returned as absent with the cache unchanged (no negative
caching). -/
theorem get_by_code_cache_aside (code : Str) (db db2 : List URLModel)
    (nid nid2 : Int) (c : List (Str × CacheDict)) :
    (∀ m, _get_cached_url code c = some m →
      get_url_by_short_code code ⟨db, nid, some c⟩ =
        (some m, ⟨db, nid, some c⟩) ∧
      (get_url_by_short_code code ⟨db, nid, some c⟩).1 =
        (get_url_by_short_code code ⟨db2, nid2, some c⟩).1) ∧
    (_get_cached_url code c = none → ∀ m, dbGetCode code db = some m →
      get_url_by_short_code code ⟨db, nid, some c⟩ =
        (some m,
          ⟨db, nid, some (cacheSet (cacheKeyFor code) (to_dict m) c)⟩)) ∧
    (_get_cached_url code c = none → dbGetCode code db = none →
      get_url_by_short_code code ⟨db, nid, some c⟩ =
        (none, ⟨db, nid, some c⟩)) := by
  refine ⟨?_, ?_, ?_⟩
  · intro m hm
    constructor
    · unfold get_url_by_short_code
      simp [hm]
    · unfold get_url_by_short_code
      simp [hm]
  · intro hmiss m hdb
    have hcode := dbGetCode_code code db m hdb
    unfold get_url_by_short_code
    simp [hmiss, hdb, _cache_url, hcode]
  · intro hmiss hdb
    unfold get_url_by_short_code
    simp [hmiss, hdb]

/-- Witness for C4: a cache hit over an empty store still answers, a miss
over a populated store populates the cache, and a missing code changes
nothing. -/
theorem get_by_code_cache_aside_witness :
    get_url_by_short_code abcK stCacheHit =
      (some (fromCacheDict (to_dict urlA)), stCacheHit) ∧
    get_url_by_short_code abcK stCacheMiss =
      (some urlA,
        ⟨[urlA], 2, some [(cacheKeyFor abcK, to_dict urlA)]⟩) ∧
    get_url_by_short_code noneK stCacheMiss = (none, stCacheMiss) := by
  refine ⟨?_, ?_, ?_⟩
  · exact ((get_by_code_cache_aside abcK [] [] 1 1
      [(cacheKeyFor abcK, to_dict urlA)]).1 (fromCacheDict (to_dict urlA))
      (by decide)).1
  · have := (get_by_code_cache_aside abcK [urlA] [] 2 2 []).2.1
      (by decide) urlA (by decide)
    exact this
  · exact (get_by_code_cache_aside noneK [urlA] [] 2 2 []).2.2
      (by decide) (by decide)

/-! ## Claim C5 -/

/-- Claim C5 fails on the code: create_url accepts d5 and populates the
cache, but the immediately following get_url_by_short_code is served
from that cache entry, whose rebuild left every datetime field as the
ISO string of the serialization instead of a datetime.  The returned
record therefore differs from the created one (created_at, updated_at
and expires_at are strings), and the is_expired computation on the
returned record raises TypeError (modelled as none) instead of
answering.  The identifier, URL, code, activity flag and click count do
survive the round trip. -/
theorem create_then_get_cache_strings :
    (create_url d5 1600000000 st5).1 = .ok m5 ∧
    (get_url_by_short_code abcK (create_url d5 1600000000 st5).2).1 =
      some (fromCacheDict (to_dict m5)) ∧
    m5.created_at = .dt 1600000000 ∧
    m5.expires_at = .dt 1700000000 ∧
    (fromCacheDict (to_dict m5)).created_at = .tstr (isoformat 1600000000) ∧
    (fromCacheDict (to_dict m5)).expires_at = .tstr (isoformat 1700000000) ∧
    (get_url_by_short_code abcK (create_url d5 1600000000 st5).2).1 ≠
      some m5 ∧
    is_expiredO 1800000000 (fromCacheDict (to_dict m5)).expires_at = none ∧
    (fromCacheDict (to_dict m5)).id = m5.id ∧
    (fromCacheDict (to_dict m5)).original_url = m5.original_url ∧
    (fromCacheDict (to_dict m5)).short_code = m5.short_code ∧
    (fromCacheDict (to_dict m5)).is_active = m5.is_active ∧
    (fromCacheDict (to_dict m5)).click_count = m5.click_count := by
  decide

/-! ## Claims C2 and C10 -/

theorem generate_random_length (rand : Nat → Nat) (len pos : Nat) :
    (generate_random rand len pos).1.length = len := by
  simp [generate_random]

theorem candidates_length (rand : Nat → Nat) (len pos n : Nat) :
    ∀ c ∈ candidates rand len pos n, c.length = len := by
  intro c hc
  unfold candidates at hc
  simp only [List.mem_map] at hc
  obtain ⟨i, _, hi⟩ := hc
  rw [← hi]
  exact generate_random_length rand len _

theorem candidates_succ (rand : Nat → Nat) (len pos n : Nat) :
    candidates rand len pos (n + 1) =
      (generate_random rand len pos).1 ::
        candidates rand len (pos + len) n := by
  unfold candidates
  rw [List.range_succ_eq_map]
  simp only [List.map_cons, List.map_map, Nat.zero_mul, Nat.add_zero]
  congr 1
  apply List.map_congr_left
  intro i _
  simp only [Function.comp]
  congr 2
  simp [Nat.succ_mul]
  ring

/-- Without a configured cache, one round of the loop returns the first
candidate the store does not already hold, leaves the repository state
unchanged, and on exhaustion parks the randomness cursor after the n
candidates it drew. -/
theorem genLoop_cacheless (rand : Nat → Nat) (len : Nat) :
    ∀ (n pos : Nat) (st : RepoState), st.cache = none →
    (genLoop rand len n pos st).1 =
      (candidates rand len pos n).find? (fun c => !taken c st) ∧
    (genLoop rand len n pos st).2.2 = st ∧
    ((genLoop rand len n pos st).1 = none →
      (genLoop rand len n pos st).2.1 = pos + n * len) := by
  intro n
  induction n with
  | zero => intro pos st _; simp [genLoop, candidates]
  | succ n ih =>
    intro pos st hc
    have hg := get_code_cacheless (generate_random rand len pos).1 st hc
    have hpos : (generate_random rand len pos).2 = pos + len := rfl
    rw [candidates_succ]
    unfold genLoop
    simp only [hg, hpos]
    cases hdb : dbGetCode (generate_random rand len pos).1 st.db with
    | some m =>
      have htk : taken (generate_random rand len pos).1 st = true := by
        unfold taken
        rw [hdb]
        rfl
      rw [List.find?_cons_of_neg _ (by simp [htk])]
      have := ih (pos + len) st hc
      refine ⟨this.1, this.2.1, fun h => ?_⟩
      rw [this.2.2 h]
      ring
    | none =>
      have htk : taken (generate_random rand len pos).1 st = false := by
        unfold taken
        rw [hdb]
        rfl
      rw [List.find?_cons_of_pos _ (by simp [htk])]
      exact ⟨rfl, rfl, by intro h; cases h⟩

/-- Claim C2: with no custom alias, allocation draws up to 100 candidates
at the generator's configured length, checks each against the store (the
cache-less get_url_by_short_code is exactly the store query dbGetCode,
so taken is that check) and returns the first free one; if all 100
collide it escalates the length by one and runs exactly one more
100-candidate round at the escalated length; if that round also
exhausts, it fails with the distinct ShortURLGenerationError. -/
theorem generate_code_spec (rand : Nat → Nat) (g : GenState)
    (st : RepoState) (hc : st.cache = none) :
    (∀ c ∈ candidates rand g.length g.pos 100, c.length = g.length) ∧
    (∀ c ∈ candidates rand (g.length + 1) (g.pos + 100 * g.length) 100,
      c.length = g.length + 1) ∧
    (∀ cf, (candidates rand g.length g.pos 100).find?
        (fun c => !taken c st) = some cf →
      (_generate_unique_short_code rand none g st).1 = .ok cf ∧
      (_generate_unique_short_code rand none g st).2.1.length = g.length) ∧
    ((candidates rand g.length g.pos 100).find?
        (fun c => !taken c st) = none →
      ∀ cf, (candidates rand (g.length + 1) (g.pos + 100 * g.length)
          100).find? (fun c => !taken c st) = some cf →
      (_generate_unique_short_code rand none g st).1 = .ok cf) ∧
    ((candidates rand g.length g.pos 100).find?
        (fun c => !taken c st) = none →
      (candidates rand (g.length + 1) (g.pos + 100 * g.length)
          100).find? (fun c => !taken c st) = none →
      (_generate_unique_short_code rand none g st).1 =
        .error .generationFailed) := by
  obtain ⟨h1a, h1b, h1c⟩ := genLoop_cacheless rand g.length 100 g.pos st hc
  refine ⟨candidates_length rand g.length g.pos 100,
    candidates_length rand (g.length + 1) (g.pos + 100 * g.length) 100,
    ?_, ?_, ?_⟩
  · intro cf hf
    rcases hL : genLoop rand g.length 100 g.pos st with ⟨o1, p1, s1⟩
    rw [hL] at h1a
    simp only at h1a
    rw [hf] at h1a
    subst h1a
    unfold _generate_unique_short_code
    rw [if_neg (by simp), hL]
    exact ⟨rfl, rfl⟩
  · intro hex cf hf
    rcases hL : genLoop rand g.length 100 g.pos st with ⟨o1, p1, s1⟩
    rw [hL] at h1a h1b h1c
    simp only at h1a h1b h1c
    rw [hex] at h1a
    subst h1a
    have hp1 := h1c rfl
    rw [hp1, h1b] at hL
    obtain ⟨h2a, h2b, h2c⟩ := genLoop_cacheless rand (g.length + 1) 100
      (g.pos + 100 * g.length) st hc
    rcases hL2 : genLoop rand (g.length + 1) 100 (g.pos + 100 * g.length) st
      with ⟨o2, p2, s2⟩
    rw [hL2] at h2a
    simp only at h2a
    rw [hf] at h2a
    subst h2a
    unfold _generate_unique_short_code
    rw [if_neg (by simp), hL]
    dsimp only
    rw [hL2]
  · intro hex hex2
    rcases hL : genLoop rand g.length 100 g.pos st with ⟨o1, p1, s1⟩
    rw [hL] at h1a h1b h1c
    simp only at h1a h1b h1c
    rw [hex] at h1a
    subst h1a
    have hp1 := h1c rfl
    rw [hp1, h1b] at hL
    obtain ⟨h2a, h2b, h2c⟩ := genLoop_cacheless rand (g.length + 1) 100
      (g.pos + 100 * g.length) st hc
    rcases hL2 : genLoop rand (g.length + 1) 100 (g.pos + 100 * g.length) st
      with ⟨o2, p2, s2⟩
    rw [hL2] at h2a
    simp only at h2a
    rw [hex2] at h2a
    subst h2a
    unfold _generate_unique_short_code
    rw [if_neg (by simp), hL]
    dsimp only
    rw [hL2]

/-- Witness for C2: with the constant randomness stream every candidate
is aaaaaa at length 6 and aaaaaaa at length 7; an empty store accepts the
first candidate, a store holding aaaaaa forces the escalation round which
then succeeds, and a store holding both exhausts the two rounds and
fails. -/
theorem generate_code_spec_witness :
    (_generate_unique_short_code randZ none gs6 stEmptyN).1 = .ok aaa6 ∧
    (_generate_unique_short_code randZ none gs6 stTaken6).1 = .ok aaa7 ∧
    (_generate_unique_short_code randZ none gs6 stTaken67).1 =
      .error .generationFailed := by
  refine ⟨?_, ?_, ?_⟩
  · exact ((generate_code_spec randZ gs6 stEmptyN rfl).2.2.1 aaa6
      (by decide)).1
  · exact (generate_code_spec randZ gs6 stTaken6 rfl).2.2.2.1 (by decide)
      aaa7 (by decide)
  · exact (generate_code_spec randZ gs6 stTaken67 rfl).2.2.2.2 (by decide)
      (by decide)

/-- Claim C10: exhausting the first 100-candidate round leaves the
service generator's length permanently incremented — whatever the second
round's outcome, the generator state after the call has length one more
than before, so every later non-alias allocation draws candidates one
character longer than the configured length. -/
theorem escalation_permanent (rand : Nat → Nat) (g : GenState)
    (st : RepoState) (hc : st.cache = none)
    (hex : (candidates rand g.length g.pos 100).find?
        (fun c => !taken c st) = none) :
    (_generate_unique_short_code rand none g st).2.1.length =
      g.length + 1 ∧
    ∀ (pos n : Nat) (c : Str),
      c ∈ candidates rand
        (_generate_unique_short_code rand none g st).2.1.length pos n →
      c.length = g.length + 1 := by
  obtain ⟨h1a, h1b, h1c⟩ := genLoop_cacheless rand g.length 100 g.pos st hc
  have hlen : (_generate_unique_short_code rand none g st).2.1.length =
      g.length + 1 := by
    rcases hL : genLoop rand g.length 100 g.pos st with ⟨o1, p1, s1⟩
    rw [hL] at h1a
    simp only at h1a
    rw [hex] at h1a
    subst h1a
    unfold _generate_unique_short_code
    rw [if_neg (by simp), hL]
    dsimp only
    rcases hL2 : genLoop rand (g.length + 1) 100 p1 s1 with ⟨o2, p2, s2⟩
    cases o2 <;> rfl
  refine ⟨hlen, fun pos n c hcmem => ?_⟩
  rw [hlen] at hcmem
  exact candidates_length rand (g.length + 1) pos n c hcmem

/-- Witness for C10 at the concrete exhausting store. -/
theorem escalation_permanent_witness :
    (_generate_unique_short_code randZ none gs6 stTaken6).2.1.length =
      6 + 1 ∧
    ∀ c, c ∈ candidates randZ
        (_generate_unique_short_code randZ none gs6 stTaken6).2.1.length
        0 5 → c.length = 6 + 1 := by
  have h := escalation_permanent randZ gs6 stTaken6 rfl (by decide)
  exact ⟨h.1, fun c hcmem => h.2 0 5 c hcmem⟩

/-! ## Claim C3 -/

/-- Claim C3: a creation request that reaches allocation (its target
passes validation) and carries a truthy custom alias for which the alias
query finds an existing record fails immediately with ShortURLExistsError
naming the alias, consumes no randomness (the generator state is
returned untouched, so no random-code generation or retry happened) and
leaves the repository state — store and cache — unchanged. -/
theorem create_alias_conflict (dns : Str → Option Str) (rand : Nat → Nat)
    (req : URLCreateRequest) (cip ua : Option Str) (now : Int)
    (g : GenState) (st : RepoState) (a : Str) (r : URLModel)
    (hv : is_valid_url dns max_url_length req.original_url = true)
    (hl : req.original_url.length ≤ max_url_length)
    (ha : req.custom_alias = some a) (hne : a ≠ [])
    (htaken : dbGetAlias a st.db = some r) :
    create_short_url dns rand req cip ua now g st =
      (.error (.alreadyExists a), g, st) := by
  have h2 : ¬ (max_url_length < req.original_url.length) := not_lt.mpr hl
  unfold create_short_url _generate_unique_short_code get_url_by_custom_alias
  rw [hv, ha]
  simp [h2, hne, htaken]

/-- Witness for C3 at the concrete state stA, whose record owns the
alias promo. -/
theorem create_alias_conflict_witness :
    create_short_url dnsNone randZ reqPromo none none 50 gs6 stA =
      (.error (.alreadyExists promoK), gs6, stA) :=
  create_alias_conflict dnsNone randZ reqPromo none none 50 gs6 stA
    promoK urlA (by decide) (by decide) (by decide) (by decide) (by decide)

/-! ## Claim C7: list splitting lemmas -/

theorem splitAtFirst_of_not_mem {ch : Char} {l : Str} (h : ch ∉ l) :
    splitAtFirst ch l = none := by
  induction l with
  | nil => rfl
  | cons c t ih =>
    simp only [List.mem_cons, not_or] at h
    simp only [splitAtFirst]
    rw [if_neg (fun he => h.1 he.symm), ih h.2]

theorem splitAtFirst_append {ch : Char} {a b : Str} (h : ch ∉ a) :
    splitAtFirst ch (a ++ ch :: b) = some (a, b) := by
  induction a with
  | nil => simp [splitAtFirst]
  | cons c t ih =>
    simp only [List.mem_cons, not_or] at h
    simp only [List.cons_append, splitAtFirst, List.append_eq]
    rw [if_neg (fun he => h.1 he.symm), ih h.2]

theorem splitAtFirst_some {ch : Char} {l a b : Str}
    (h : splitAtFirst ch l = some (a, b)) :
    l = a ++ ch :: b ∧ ch ∉ a := by
  induction l generalizing a with
  | nil => cases h
  | cons c t ih =>
    unfold splitAtFirst at h
    by_cases hc : c = ch
    · rw [if_pos hc] at h
      cases h
      simp [hc]
    · rw [if_neg hc] at h
      cases ht : splitAtFirst ch t with
      | none => rw [ht] at h; cases h
      | some p =>
        rw [ht] at h
        cases p with
        | mk a' b' =>
          cases h
          obtain ⟨h1, h2⟩ := ih ht
          constructor
          · simp [h1]
          · simp only [List.mem_cons, not_or]
            exact ⟨fun he => hc he.symm, h2⟩

theorem splitAtFirst_mem {ch : Char} {l : Str} (h : ch ∈ l) :
    ∃ a b, splitAtFirst ch l = some (a, b) := by
  induction l with
  | nil => cases h
  | cons c t ih =>
    unfold splitAtFirst
    by_cases hc : c = ch
    · rw [if_pos hc]
      exact ⟨[], t, rfl⟩
    · rw [if_neg hc]
      rcases List.mem_cons.mp h with he | ht
      · exact absurd he.symm hc
      · obtain ⟨a, b, hab⟩ := ih ht
        rw [hab]
        exact ⟨c :: a, b, rfl⟩

theorem splitAtLast_append {ch : Char} {a b : Str} (h : ch ∉ b) :
    splitAtLast ch (a ++ ch :: b) = some (a, b) := by
  unfold splitAtLast
  have hr : (a ++ ch :: b).reverse = b.reverse ++ ch :: a.reverse := by
    simp
  rw [hr, splitAtFirst_append (by simpa using h)]
  simp

theorem splitAtLast_some {ch : Char} {l a b : Str}
    (h : splitAtLast ch l = some (a, b)) :
    l = a ++ ch :: b ∧ ch ∉ b := by
  unfold splitAtLast at h
  cases hf : splitAtFirst ch l.reverse with
  | none => rw [hf] at h; cases h
  | some p =>
    rw [hf] at h
    cases p with
    | mk x y =>
      cases h
      obtain ⟨h1, h2⟩ := splitAtFirst_some hf
      constructor
      · have := congrArg List.reverse h1
        simpa using this
      · simpa using h2

theorem splitAtLast_of_not_mem {ch : Char} {l : Str} (h : ch ∉ l) :
    splitAtLast ch l = none := by
  unfold splitAtLast
  rw [splitAtFirst_of_not_mem (by simpa using h)]

theorem splitAtLast_mem {ch : Char} {l : Str} (h : ch ∈ l) :
    ∃ a b, splitAtLast ch l = some (a, b) := by
  unfold splitAtLast
  obtain ⟨x, y, hxy⟩ := splitAtFirst_mem (l := l.reverse) (by simpa using h)
  rw [hxy]
  exact ⟨y.reverse, x.reverse, rfl⟩

theorem takeWhile_all {p : Char → Bool} {l : Str}
    (h : ∀ c ∈ l, p c = true) : l.takeWhile p = l := by
  induction l with
  | nil => rfl
  | cons c t ih =>
    rw [List.takeWhile_cons, if_pos (h c (by simp))]
    rw [ih (fun x hx => h x (by simp [hx]))]

theorem dropWhile_all {p : Char → Bool} {l : Str}
    (h : ∀ c ∈ l, p c = true) : l.dropWhile p = [] := by
  induction l with
  | nil => rfl
  | cons c t ih =>
    rw [List.dropWhile_cons, if_pos (h c (by simp))]
    exact ih (fun x hx => h x (by simp [hx]))

theorem dropWhile_head_false {p : Char → Bool} {l : Str} {x : Char}
    (h : (l.dropWhile p).head? = some x) : p x = false := by
  induction l with
  | nil => cases h
  | cons c t ih =>
    rw [List.dropWhile_cons] at h
    by_cases hc : p c = true
    · rw [if_pos hc] at h
      exact ih h
    · rw [if_neg hc] at h
      simp only [List.head?_cons, Option.some.injEq] at h
      rw [← h]
      simpa using hc

theorem splitNetloc_append {nl tail : Str}
    (h : ∀ c ∈ nl, netlocDelim c = false)
    (ht : tail = [] ∨ ∃ d tl, tail = d :: tl ∧ netlocDelim d = true) :
    splitNetloc (nl ++ tail) = (nl, tail) := by
  induction nl with
  | nil =>
    rcases ht with rfl | ⟨d, tl, rfl, hd⟩
    · rfl
    · simp [splitNetloc, hd]
  | cons c t ih =>
    have hc : netlocDelim c = false := h c (by simp)
    have ihh := ih (fun x hx => h x (by simp [hx]))
    simp only [splitNetloc] at ihh ⊢
    simp only [List.cons_append, List.takeWhile_cons, List.dropWhile_cons,
      hc]
    simp only [Bool.not_false, if_true]
    rw [(Prod.mk.injEq _ _ _ _).mp ihh |>.1,
      (Prod.mk.injEq _ _ _ _).mp ihh |>.2]

theorem fragSplit_no {l : Str} (h : ('#' : Char) ∉ l) :
    fragSplit l = (l, []) := by
  unfold fragSplit
  rw [splitAtFirst_of_not_mem h]

theorem fragSplit_mark {a b : Str} (h : ('#' : Char) ∉ a) :
    fragSplit (a ++ '#' :: b) = (a, b) := by
  unfold fragSplit
  rw [splitAtFirst_append h]

theorem querySplit_no {l : Str} (h : ('?' : Char) ∉ l) :
    querySplit l = (l, []) := by
  unfold querySplit
  rw [splitAtFirst_of_not_mem h]

theorem querySplit_mark {a b : Str} (h : ('?' : Char) ∉ a) :
    querySplit (a ++ '?' :: b) = (a, b) := by
  unfold querySplit
  rw [splitAtFirst_append h]

theorem afterLastSlash_of_not_mem {p : Str} (h : ('/' : Char) ∉ p) :
    afterLastSlash p = p := by
  unfold afterLastSlash
  rw [splitAtLast_of_not_mem h]

theorem afterLastSlash_append {a b : Str} (h : ('/' : Char) ∉ b) :
    afterLastSlash (a ++ '/' :: b) = b := by
  unfold afterLastSlash
  rw [splitAtLast_append h]

/-! ## Claim C7: lower-casing lemmas -/

theorem toNat_ofNat_valid {n : Nat} (h : n.isValidChar) :
    (Char.ofNat n).toNat = n := by
  unfold Char.ofNat
  rw [dif_pos h]
  rfl

theorem toLower_of_not_upper {c : Char}
    (h : ¬(65 ≤ c.toNat ∧ c.toNat ≤ 90)) : Char.toLower c = c := by
  unfold Char.toLower
  rw [if_neg h]

theorem toLower_toNat_of_upper {c : Char}
    (h : 65 ≤ c.toNat ∧ c.toNat ≤ 90) :
    (Char.toLower c).toNat = c.toNat + 32 := by
  unfold Char.toLower
  rw [if_pos h]
  exact toNat_ofNat_valid (Or.inl (by omega))

theorem toLower_idem (c : Char) :
    Char.toLower (Char.toLower c) = Char.toLower c := by
  by_cases h : 65 ≤ c.toNat ∧ c.toNat ≤ 90
  · have h2 := toLower_toNat_of_upper h
    apply toLower_of_not_upper
    omega
  · rw [toLower_of_not_upper h, toLower_of_not_upper h]

theorem lowerL_idem (l : Str) : lowerL (lowerL l) = lowerL l := by
  unfold lowerL
  rw [List.map_map]
  apply List.map_congr_left
  intro c _
  exact toLower_idem c

theorem netlocDelim_toLower {c : Char} (h : netlocDelim c = false) :
    netlocDelim (Char.toLower c) = false := by
  by_cases hu : 65 ≤ c.toNat ∧ c.toNat ≤ 90
  · have h2 := toLower_toNat_of_upper hu
    have h1 : Char.toLower c ≠ '/' := fun he => by
      rw [he] at h2
      rw [show ('/' : Char).toNat = 47 from rfl] at h2
      omega
    have h3 : Char.toLower c ≠ '?' := fun he => by
      rw [he] at h2
      rw [show ('?' : Char).toNat = 63 from rfl] at h2
      omega
    have h4 : Char.toLower c ≠ '#' := fun he => by
      rw [he] at h2
      rw [show ('#' : Char).toNat = 35 from rfl] at h2
      omega
    unfold netlocDelim
    simp [h1, h3, h4]
  · rw [toLower_of_not_upper hu]
    exact h

theorem ctlChar_toLower {c : Char} (h : ctlChar c = false) :
    ctlChar (Char.toLower c) = false := by
  by_cases hu : 65 ≤ c.toNat ∧ c.toNat ≤ 90
  · have h2 := toLower_toNat_of_upper hu
    have h1 : Char.toLower c ≠ '\t' := fun he => by
      rw [he] at h2
      rw [show ('\t' : Char).toNat = 9 from rfl] at h2
      omega
    have h3 : Char.toLower c ≠ '\x0d' := fun he => by
      rw [he] at h2
      rw [show ('\x0d' : Char).toNat = 13 from rfl] at h2
      omega
    have h4 : Char.toLower c ≠ '\n' := fun he => by
      rw [he] at h2
      rw [show ('\n' : Char).toNat = 10 from rfl] at h2
      omega
    unfold ctlChar
    simp [h1, h3, h4]
  · rw [toLower_of_not_upper hu]
    exact h

/-! ## Claim C7: params lemmas -/

theorem splitAtFirst_none_not_mem {ch : Char} {l : Str}
    (h : splitAtFirst ch l = none) : ch ∉ l := by
  intro hmem
  obtain ⟨a, b, hab⟩ := splitAtFirst_mem hmem
  rw [hab] at h
  cases h

theorem afterLastSlash_mem {p : Str} {c : Char}
    (h : c ∈ afterLastSlash p) : c ∈ p := by
  by_cases hs : ('/' : Char) ∈ p
  · obtain ⟨a, b, hab⟩ := splitAtLast_mem hs
    obtain ⟨heq, _⟩ := splitAtLast_some hab
    unfold afterLastSlash at h
    rw [hab] at h
    rw [heq]
    simp [h]
  · rw [afterLastSlash_of_not_mem hs] at h
    exact h

/-- The invariants urlparse's params stage guarantees, for an input that
is empty or starts with a slash (which is what the netloc scan leaves). -/
theorem paramSplit_parts (l : Str) (hl : l = [] ∨ l.head? = some '/') :
    ((paramSplit l).1 = [] ∨ (paramSplit l).1.head? = some '/') ∧
    ((paramSplit l).1 = [] → (paramSplit l).2 = []) ∧
    ((';' : Char) ∉ afterLastSlash (paramSplit l).1) ∧
    (('/' : Char) ∉ (paramSplit l).2) ∧
    (∀ c ∈ (paramSplit l).1, c ∈ l) ∧
    (∀ c ∈ (paramSplit l).2, c ∈ l) := by
  rcases hl with rfl | hh
  · exact ⟨Or.inl rfl, fun _ => rfl, by decide, by decide, by decide,
      by decide⟩
  · obtain ⟨t, rfl⟩ : ∃ t, l = '/' :: t := by
      cases l with
      | nil => cases hh
      | cons x t =>
        simp only [List.head?_cons, Option.some.injEq] at hh
        exact ⟨t, by rw [hh]⟩
    have hsl : ('/' : Char) ∈ '/' :: t := by simp
    by_cases hsp : (';' : Char) ∈ '/' :: t
    · unfold paramSplit
      rw [if_pos hsp]
      unfold splitparams
      rw [if_pos hsl]
      obtain ⟨a, b, hab⟩ := splitAtLast_mem hsl
      obtain ⟨heq, hnb⟩ := splitAtLast_some hab
      rw [hab]
      dsimp only
      cases hfb : splitAtFirst ';' b with
      | some p =>
        cases p with
        | mk b1 b2 =>
          dsimp only
          obtain ⟨hbeq, hnb1⟩ := splitAtFirst_some hfb
          have hb1 : ('/' : Char) ∉ b1 := fun hm => hnb (by
            rw [hbeq]; simp [hm])
          have hb2 : ('/' : Char) ∉ b2 := fun hm => hnb (by
            rw [hbeq]; simp [hm])
          refine ⟨?_, ?_, ?_, hb2, ?_, ?_⟩
          · right
            cases a with
            | nil => simp
            | cons x a2 =>
              have : x = '/' := by
                have := heq
                simp only [List.cons_append, List.cons.injEq] at this
                exact this.1.symm
              simp [this]
          · intro hpe
            exact absurd hpe (by simp)
          · rw [afterLastSlash_append hb1]
            exact hnb1
          · intro c hcm
            rw [heq, hbeq]
            simp only [List.mem_append, List.mem_cons] at hcm ⊢
            rcases hcm with h1 | h2 | h3
            · exact Or.inl h1
            · exact Or.inr (Or.inl h2)
            · exact Or.inr (Or.inr (Or.inl h3))
          · intro c hcm
            rw [heq, hbeq]
            simp [hcm]
      | none =>
        dsimp only
        have hnsb : (';' : Char) ∉ b := splitAtFirst_none_not_mem hfb
        refine ⟨Or.inr (by simp), fun hpe => absurd hpe (by simp), ?_,
          by simp, fun c hcm => hcm, by simp⟩
        rw [heq, afterLastSlash_append hnb]
        exact hnsb
    · unfold paramSplit
      rw [if_neg hsp]
      refine ⟨Or.inr (by simp), fun hpe => absurd hpe (by simp), ?_,
        by simp, fun c hcm => hcm, by simp⟩
      exact fun hm => hsp (afterLastSlash_mem hm)

/-- The params stage undoes urlunparse's params join. -/
theorem paramSplit_join {path params : Str}
    (_hp0 : path = [] ∨ path.head? = some '/')
    (hpe : path = [] → params = [])
    (hsemi : (';' : Char) ∉ afterLastSlash path)
    (hpar : ('/' : Char) ∉ params) :
    paramSplit (if params ≠ [] then path ++ ';' :: params else path) =
      (path, params) := by
  by_cases hqe : params = []
  · rw [if_neg (by simp [hqe])]
    subst hqe
    by_cases hsp : (';' : Char) ∈ path
    · have hslash : ('/' : Char) ∈ path := by
        by_contra hno
        rw [afterLastSlash_of_not_mem hno] at hsemi
        exact hsemi hsp
      obtain ⟨a, b, hab⟩ := splitAtLast_mem hslash
      obtain ⟨heq, hnb⟩ := splitAtLast_some hab
      have hnsb : (';' : Char) ∉ b := by
        rw [heq, afterLastSlash_append hnb] at hsemi
        exact hsemi
      unfold paramSplit
      rw [if_pos hsp]
      unfold splitparams
      rw [if_pos hslash, hab]
      dsimp only
      rw [splitAtFirst_of_not_mem hnsb]
    · unfold paramSplit
      rw [if_neg hsp]
  · rw [if_pos hqe]
    have hsl : (';' : Char) ∈ path ++ ';' :: params := by simp
    unfold paramSplit
    rw [if_pos hsl]
    unfold splitparams
    by_cases hslash : ('/' : Char) ∈ path
    · obtain ⟨a, b, hab⟩ := splitAtLast_mem hslash
      obtain ⟨heq, hnb⟩ := splitAtLast_some hab
      have hnsb : (';' : Char) ∉ b := by
        rw [heq, afterLastSlash_append hnb] at hsemi
        exact hsemi
      have hshape : path ++ ';' :: params = a ++ '/' :: (b ++ ';' :: params) := by
        rw [heq]
        simp
      rw [if_pos (show ('/' : Char) ∈ path ++ ';' :: params by
        rw [heq]; simp)]
      rw [hshape, splitAtLast_append (by
        simp only [List.mem_append, List.mem_cons, not_or]
        exact ⟨hnb, by decide, hpar⟩)]
      dsimp only
      rw [splitAtFirst_append hnsb]
      dsimp only
      rw [← heq]
    · have hnol : ('/' : Char) ∉ path ++ ';' :: params := by
        simp only [List.mem_append, List.mem_cons, not_or]
        exact ⟨hslash, by decide, hpar⟩
      have hnsp : (';' : Char) ∉ path := by
        rw [afterLastSlash_of_not_mem hslash] at hsemi
        exact hsemi
      rw [if_neg hnol, splitAtFirst_append hnsp]

/-! ## Claim C7: unparse decomposition -/

/-- For the component shapes normalize_url produces, urlunparse emits
scheme://netloc followed by the joined tail. -/
theorem urlunparse_decomp (r : ParseResult)
    (hs : r.scheme = httpL ∨ r.scheme = httpsL)
    (hp0 : r.path = [] ∨ r.path.head? = some '/')
    (hpe : r.path = [] → r.params = [])
    (hnp : r.netloc ≠ [] ∨ r.path.take 2 ≠ ['/', '/']) :
    urlunparse r =
      r.scheme ++ ':' :: '/' :: '/' :: (r.netloc ++ tailOf r) := by
  obtain ⟨sch, nl, path, params, query, frag⟩ := r
  simp only at hs hp0 hpe hnp ⊢
  unfold urlunparse urlunsplit tailOf
  dsimp only
  set u0 := if params ≠ [] then path ++ ';' :: params else path with hu0
  have hu0head : u0 = [] ∨ u0.head? = some '/' := by
    rcases hp0 with hpath | hh
    · left
      rw [hu0, hpath, hpe hpath]
      simp
    · right
      rw [hu0]
      by_cases hpa : params = []
      · rw [if_neg (by simp [hpa])]
        exact hh
      · rw [if_pos hpa]
        cases path with
        | nil => cases hh
        | cons x t =>
          simp only [List.head?_cons, Option.some.injEq] at hh
          simp [hh]
  have hu0take : u0.take 2 ≠ ['/', '/'] → True := fun _ => trivial
  have hcond : nl ≠ [] ∨
      (sch ≠ [] ∧ sch ∈ uses_netloc ∧ u0.take 2 ≠ ['/', '/']) := by
    rcases hnp with hnl | hpt
    · exact Or.inl hnl
    · right
      refine ⟨by rcases hs with h | h <;> rw [h] <;> decide,
        by rcases hs with h | h <;> rw [h] <;> decide, ?_⟩
      rw [hu0]
      by_cases hpa : params = []
      · rw [if_neg (by simp [hpa])]
        exact hpt
      · rw [if_pos hpa]
        cases path with
        | nil => exact absurd (hpe rfl) hpa
        | cons x t =>
          cases t with
          | nil =>
            rcases hp0 with h0 | h0
            · cases h0
            · simp only [List.head?_cons, Option.some.injEq] at h0
              subst h0
              simp
          | cons y t2 =>
            simpa using hpt
  rw [if_pos hcond]
  have hnoslash : ¬(u0 ≠ [] ∧ u0.head? ≠ some '/') := by
    rcases hu0head with h | h
    · simp [h]
    · simp [h]
  rw [if_neg hnoslash]
  rw [if_pos (show sch ≠ [] by
    rcases hs with h | h <;> rw [h] <;> decide)]
  by_cases hq : query = [] <;> by_cases hf : frag = [] <;>
    simp [hq, hf, List.append_assoc]

/-! ## Claim C7: parsing the canonical shape -/

theorem removeCtl_all {l : Str} (h : ∀ c ∈ l, ctlChar c = false) :
    removeCtl l = l := by
  unfold removeCtl
  rw [List.filter_eq_self.mpr (fun a ha => by simp [h a ha])]

theorem removeCtl_clean (l : Str) :
    ∀ c ∈ removeCtl l, ctlChar c = false := by
  intro c hc
  have := List.of_mem_filter hc
  simpa using this

/-- Parsing a URL whose cleaned form is scheme://rest for an http or
https scheme runs exactly the tail pipeline. -/
theorem urlparse_canonical (w sch rest : Str)
    (hs : sch = httpL ∨ sch = httpsL)
    (heq : removeCtl (w.dropWhile c0OrSpace) =
      sch ++ ':' :: '/' :: '/' :: rest) :
    urlparse w = pipeTail sch rest := by
  have hss : splitScheme (sch ++ ':' :: '/' :: '/' :: rest) =
      (sch, '/' :: '/' :: rest) := by
    rcases hs with h | h <;> subst h <;>
      · unfold splitScheme
        rw [splitAtFirst_append (by decide)]
        dsimp only [httpL, httpsL]
        rw [if_pos (by decide)]
        rfl
  unfold urlparse
  rw [heq]
  dsimp only
  rw [hss]
  dsimp only
  rw [if_pos (show (('/' : Char) :: '/' :: rest).take 2 = ['/', '/'] from
    rfl)]
  rfl

theorem urlparse_shaped (sch X : Str) (hs : sch = httpL ∨ sch = httpsL)
    (hcleanX : ∀ c ∈ X, ctlChar c = false) :
    urlparse (sch ++ ':' :: '/' :: '/' :: X) = pipeTail sch X := by
  apply urlparse_canonical _ _ _ hs
  have h1 : (sch ++ ':' :: '/' :: '/' :: X).dropWhile c0OrSpace =
      sch ++ ':' :: '/' :: '/' :: X := by
    rcases hs with h | h <;> subst h <;> rfl
  have h2 : removeCtl (sch ++ ':' :: '/' :: '/' :: X) =
      sch ++ ':' :: '/' :: '/' :: removeCtl X := by
    rcases hs with h | h <;> subst h <;> rfl
  rw [h1, h2, removeCtl_all hcleanX]

theorem urlparse_http_pref (w : Str) (h : w.take 7 = httpSlashes) :
    urlparse w = pipeTail httpL (removeCtl (w.drop 7)) := by
  obtain ⟨t, rfl⟩ : ∃ t, w = httpSlashes ++ t :=
    ⟨w.drop 7, by conv_lhs => rw [← List.take_append_drop 7 w, h]⟩
  exact urlparse_canonical _ _ _ (Or.inl rfl) rfl

theorem urlparse_https_pref (w : Str) (h : w.take 8 = httpsSlashes) :
    urlparse w = pipeTail httpsL (removeCtl (w.drop 8)) := by
  obtain ⟨t, rfl⟩ : ∃ t, w = httpsSlashes ++ t :=
    ⟨w.drop 8, by conv_lhs => rw [← List.take_append_drop 8 w, h]⟩
  exact urlparse_canonical _ _ _ (Or.inr rfl) rfl

theorem ensureScheme_take (v : Str) :
    (ensureScheme v).take 7 = httpSlashes ∨
      (ensureScheme v).take 8 = httpsSlashes := by
  unfold ensureScheme
  by_cases h : v.take 7 = httpSlashes ∨ v.take 8 = httpsSlashes
  · rw [if_pos h]
    exact h
  · rw [if_neg h]
    right
    rfl

theorem ensureScheme_of {s : Str}
    (h : s.take 7 = httpSlashes ∨ s.take 8 = httpsSlashes) :
    ensureScheme s = s := by
  unfold ensureScheme
  rw [if_pos h]

theorem lowerL_take (l : Str) (n : Nat) :
    lowerL (l.take n) = (lowerL l).take n := by
  unfold lowerL
  exact List.map_take _ _ _

theorem lowerL_stripDefaultPort (sch x : Str) :
    lowerL (stripDefaultPort sch (lowerL x)) =
      stripDefaultPort sch (lowerL x) := by
  unfold stripDefaultPort
  split_ifs
  · rw [lowerL_take, lowerL_idem]
  · rw [lowerL_take, lowerL_idem]
  · rw [lowerL_idem]

/-! ## Claim C7: stage invariants -/

theorem fragSplit_facts (l : Str) :
    (('#' : Char) ∉ (fragSplit l).1) ∧
    (∀ c ∈ (fragSplit l).1, c ∈ l) ∧
    (∀ c ∈ (fragSplit l).2, c ∈ l) ∧
    ((fragSplit l).1 = [] ∨ (fragSplit l).1.head? = l.head?) := by
  cases hsp : splitAtFirst '#' l with
  | none =>
    have hn := splitAtFirst_none_not_mem hsp
    have he : fragSplit l = (l, []) := by simp [fragSplit, hsp]
    rw [he]
    exact ⟨hn, fun c hc => hc, by simp, Or.inr rfl⟩
  | some p =>
    obtain ⟨a, b⟩ := p
    obtain ⟨h1, h2⟩ := splitAtFirst_some hsp
    have he : fragSplit l = (a, b) := by simp [fragSplit, hsp]
    rw [he]
    refine ⟨h2, ?_, ?_, ?_⟩
    · intro c hc
      rw [h1]
      simp [hc]
    · intro c hc
      rw [h1]
      simp [hc]
    · cases a with
      | nil => exact Or.inl rfl
      | cons x t =>
        right
        rw [h1]
        rfl

theorem querySplit_facts (l : Str) :
    (('?' : Char) ∉ (querySplit l).1) ∧
    (∀ c ∈ (querySplit l).1, c ∈ l) ∧
    (∀ c ∈ (querySplit l).2, c ∈ l) ∧
    ((querySplit l).1 = [] ∨ (querySplit l).1.head? = l.head?) := by
  cases hsp : splitAtFirst '?' l with
  | none =>
    have hn := splitAtFirst_none_not_mem hsp
    have he : querySplit l = (l, []) := by simp [querySplit, hsp]
    rw [he]
    exact ⟨hn, fun c hc => hc, by simp, Or.inr rfl⟩
  | some p =>
    obtain ⟨a, b⟩ := p
    obtain ⟨h1, h2⟩ := splitAtFirst_some hsp
    have he : querySplit l = (a, b) := by simp [querySplit, hsp]
    rw [he]
    refine ⟨h2, ?_, ?_, ?_⟩
    · intro c hc
      rw [h1]
      simp [hc]
    · intro c hc
      rw [h1]
      simp [hc]
    · cases a with
      | nil => exact Or.inl rfl
      | cons x t =>
        right
        rw [h1]
        rfl

/-- The parse of an http(s)-prefixed URL satisfies the reassembly
invariants. -/
theorem pipeTail_wf (sch ft : Str) (hs : sch = httpL ∨ sch = httpsL)
    (hclean : ∀ c ∈ ft, ctlChar c = false) :
    WFparts (pipeTail sch ft) := by
  have hnl_delim : ∀ c ∈ (splitNetloc ft).1, netlocDelim c = false := by
    intro c hc
    simp only [splitNetloc] at hc
    have := List.mem_takeWhile_imp hc
    simpa using this
  have hnl_clean : ∀ c ∈ (splitNetloc ft).1, ctlChar c = false := by
    intro c hc
    simp only [splitNetloc] at hc
    exact hclean c (( List.takeWhile_prefix _).subset hc)
  have hr1_clean : ∀ c ∈ (splitNetloc ft).2, ctlChar c = false := by
    intro c hc
    simp only [splitNetloc] at hc
    exact hclean c ((List.dropWhile_suffix _).subset hc)
  have hr1_head : ∀ x, ((splitNetloc ft).2).head? = some x →
      netlocDelim x = true := by
    intro x hx
    simp only [splitNetloc] at hx
    have := dropWhile_head_false hx
    simpa using this
  obtain ⟨hf1, hf2, hf3, hf4⟩ := fragSplit_facts (splitNetloc ft).2
  obtain ⟨hq1, hq2, hq3, hq4⟩ := querySplit_facts (fragSplit (splitNetloc ft).2).1
  have hr3_head : (querySplit (fragSplit (splitNetloc ft).2).1).1 = [] ∨
      (querySplit (fragSplit (splitNetloc ft).2).1).1.head? = some '/' := by
    cases hr3 : (querySplit (fragSplit (splitNetloc ft).2).1).1 with
    | nil => exact Or.inl rfl
    | cons x t =>
      right
      have hx3 : (querySplit (fragSplit (splitNetloc ft).2).1).1.head? =
          some x := by rw [hr3]; rfl
      have hx2 : (fragSplit (splitNetloc ft).2).1.head? = some x := by
        rcases hq4 with h | h
        · rw [h] at hr3; cases hr3
        · rw [← h]; exact hx3
      have hx1 : ((splitNetloc ft).2).head? = some x := by
        rcases hf4 with h | h
        · rw [h] at hx2; cases hx2
        · rw [← h]; exact hx2
      have hdel := hr1_head x hx1
      have hxmem3 : x ∈ (querySplit (fragSplit (splitNetloc ft).2).1).1 := by
        rw [hr3]; simp
      have hxne2 : x ≠ '#' := fun he => hf1 (he ▸ hq2 x hxmem3)
      have hxneq : x ≠ '?' := fun he => hq1 (he ▸ hxmem3)
      simp only [netlocDelim, Bool.or_eq_true, decide_eq_true_eq] at hdel
      rcases hdel with (h | h) | h
      · simp [h]
      · exact absurd h hxneq
      · exact absurd h hxne2
  obtain ⟨hp1, hp2, hp3, hp4, hp5, hp6⟩ :=
    paramSplit_parts (querySplit (fragSplit (splitNetloc ft).2).1).1 hr3_head
  unfold pipeTail
  dsimp only
  refine ⟨hs, fun c hc => ⟨hnl_delim c hc, hnl_clean c hc⟩, hp1, ?_, hp2,
    ?_, hp3, ?_, ?_⟩
  · intro c hc
    have hc3 := hp5 c hc
    have hc2 := hq2 c hc3
    refine ⟨fun he => hf1 (he ▸ hc2), fun he => hq1 (he ▸ hc3),
      hr1_clean c (hf2 c hc2)⟩
  · intro c hc
    have hc3 := hp6 c hc
    have hc2 := hq2 c hc3
    refine ⟨fun he => hf1 (he ▸ hc2), fun he => hq1 (he ▸ hc3),
      fun he => hp4 (he ▸ hc), hr1_clean c (hf2 c hc2)⟩
  · intro c hc
    have hc2 := hq3 c hc
    exact ⟨fun he => hf1 (he ▸ hc2), hr1_clean c (hf2 c hc2)⟩
  · intro c hc
    exact hr1_clean c (hf3 c hc)

/-- Re-parsing the canonical tail recovers the components exactly. -/
theorem pipeTail_recover (r : ParseResult) (h : WFparts r) :
    pipeTail r.scheme (r.netloc ++ tailOf r) = r := by
  obtain ⟨sch, nl, path, params, query, frag⟩ := r
  obtain ⟨hs, hn, hp0, hpc, hpe, hprc, hsemi, hqc, hfc⟩ := h
  simp only at hs hn hp0 hpc hpe hprc hsemi hqc hfc ⊢
  unfold tailOf
  dsimp only
  set u0 := if params ≠ [] then path ++ ';' :: params else path with hu0
  have hpar : ('/' : Char) ∉ params := fun hm => (hprc _ hm).2.2.1 rfl
  have hu0hash : ('#' : Char) ∉ u0 := by
    rw [hu0]
    by_cases hpa : params = []
    · rw [if_neg (by simp [hpa])]
      exact fun hm => (hpc _ hm).1 rfl
    · rw [if_pos hpa]
      intro hm
      rcases List.mem_append.mp hm with h1 | h2
      · exact (hpc _ h1).1 rfl
      · rcases List.mem_cons.mp h2 with h3 | h4
        · exact absurd h3 (by decide)
        · exact (hprc _ h4).1 rfl
  have hu0q : ('?' : Char) ∉ u0 := by
    rw [hu0]
    by_cases hpa : params = []
    · rw [if_neg (by simp [hpa])]
      exact fun hm => (hpc _ hm).2.1 rfl
    · rw [if_pos hpa]
      intro hm
      rcases List.mem_append.mp hm with h1 | h2
      · exact (hpc _ h1).2.1 rfl
      · rcases List.mem_cons.mp h2 with h3 | h4
        · exact absurd h3 (by decide)
        · exact (hprc _ h4).2.1 rfl
  have hu0head : u0 = [] ∨ u0.head? = some '/' := by
    rcases hp0 with hpath | hh
    · left
      rw [hu0, hpath, hpe hpath]
      simp
    · right
      rw [hu0]
      by_cases hpa : params = []
      · rw [if_neg (by simp [hpa])]
        exact hh
      · rw [if_pos hpa]
        cases path with
        | nil => cases hh
        | cons x t =>
          simp only [List.head?_cons, Option.some.injEq] at hh
          simp [hh]
  have hmid_hash : ('#' : Char) ∉
      u0 ++ (if query ≠ [] then '?' :: query else []) := by
    intro hm
    rcases List.mem_append.mp hm with h1 | h2
    · exact hu0hash h1
    · by_cases hqe : query = []
      · rw [if_neg (by simp [hqe])] at h2
        cases h2
      · rw [if_pos hqe] at h2
        rcases List.mem_cons.mp h2 with h3 | h4
        · exact absurd h3 (by decide)
        · exact (hqc _ h4).1 rfl
  have hn1 : ∀ c ∈ nl, netlocDelim c = false := fun c hc => (hn c hc).1
  have hhead : (u0 ++ (if query ≠ [] then '?' :: query else []) ++
        (if frag ≠ [] then '#' :: frag else [])) = [] ∨
      ∃ d tl, (u0 ++ (if query ≠ [] then '?' :: query else []) ++
        (if frag ≠ [] then '#' :: frag else [])) = d :: tl ∧
        netlocDelim d = true := by
    rcases hu0head with hu | hu
    · rw [hu]
      simp only [List.nil_append]
      by_cases hqe : query = []
      · rw [if_neg (by simp [hqe])]
        simp only [List.nil_append]
        by_cases hfe : frag = []
        · rw [if_neg (by simp [hfe])]
          exact Or.inl rfl
        · rw [if_pos hfe]
          exact Or.inr ⟨'#', frag, rfl, by decide⟩
      · rw [if_pos hqe]
        right
        rw [List.cons_append]
        exact ⟨'?', _, rfl, by decide⟩
    · cases hu0e : u0 with
      | nil => rw [hu0e] at hu; cases hu
      | cons x t =>
        rw [hu0e] at hu
        simp only [List.head?_cons, Option.some.injEq] at hu
        subst hu
        right
        simp only [List.cons_append]
        exact ⟨'/', _, rfl, by decide⟩
  unfold pipeTail
  dsimp only
  rw [splitNetloc_append hn1 hhead]
  dsimp only
  by_cases hfe : frag = []
  · rw [if_neg (show ¬ frag ≠ [] by simp [hfe]), List.append_nil]
    rw [fragSplit_no hmid_hash]
    dsimp only
    by_cases hqe : query = []
    · rw [if_neg (show ¬ query ≠ [] by simp [hqe]), List.append_nil]
      rw [querySplit_no hu0q]
      dsimp only
      rw [hu0, paramSplit_join hp0 hpe hsemi hpar]
      rw [hfe, hqe]
    · rw [if_pos hqe]
      rw [querySplit_mark hu0q]
      dsimp only
      rw [hu0, paramSplit_join hp0 hpe hsemi hpar]
      rw [hfe]
  · rw [if_pos hfe]
    rw [fragSplit_mark hmid_hash]
    dsimp only
    by_cases hqe : query = []
    · rw [if_neg (show ¬ query ≠ [] by simp [hqe]), List.append_nil]
      rw [querySplit_no hu0q]
      dsimp only
      rw [hu0, paramSplit_join hp0 hpe hsemi hpar]
      rw [hqe]
    · rw [if_pos hqe]
      rw [querySplit_mark hu0q]
      dsimp only
      rw [hu0, paramSplit_join hp0 hpe hsemi hpar]

/-! ## Claim C7: the normalize fixed point -/

theorem stripDefaultPort_netloc_chars (sch nl : Str)
    (h : ∀ c ∈ nl, netlocDelim c = false ∧ ctlChar c = false) :
    ∀ c ∈ stripDefaultPort sch (lowerL nl),
      netlocDelim c = false ∧ ctlChar c = false := by
  intro c hc
  have hc2 : c ∈ lowerL nl := by
    unfold stripDefaultPort at hc
    split_ifs at hc
    · exact List.take_subset _ _ hc
    · exact List.take_subset _ _ hc
    · exact hc
  obtain ⟨c0, hc0, rfl⟩ := List.mem_map.mp hc2
  exact ⟨netlocDelim_toLower (h c0 hc0).1, ctlChar_toLower (h c0 hc0).2⟩

theorem WFparts_update {p : ParseResult} (h : WFparts p) :
    WFparts
      { p with netloc := stripDefaultPort p.scheme (lowerL p.netloc) } := by
  obtain ⟨h1, h2, h3, h4, h5, h6, h7, h8, h9⟩ := h
  exact ⟨h1, stripDefaultPort_netloc_chars _ _ h2, h3, h4, h5, h6, h7, h8,
    h9⟩

theorem normalizeParts_wf (u : Str) : WFparts (normalizeParts u) := by
  have hwp : WFparts (urlparse (ensureScheme (stripWS u))) := by
    rcases ensureScheme_take (stripWS u) with h | h
    · rw [urlparse_http_pref _ h]
      exact pipeTail_wf _ _ (Or.inl rfl) (removeCtl_clean _)
    · rw [urlparse_https_pref _ h]
      exact pipeTail_wf _ _ (Or.inr rfl) (removeCtl_clean _)
  exact WFparts_update hwp

theorem normalizeParts_netloc_lower (u : Str) :
    lowerL (normalizeParts u).netloc = (normalizeParts u).netloc := by
  unfold normalizeParts
  dsimp only
  exact lowerL_stripDefaultPort _ _

/-- Counterexample to C7 as stated: normalize_url strips at most one
copy of the default port per pass, so a netloc ending in a doubled
default port is normalized differently by a second application. -/
theorem normalize_not_idempotent_cex :
    normalize_url (normalize_url cex80) ≠ normalize_url cex80 := by
  decide

/-- Amended C7: normalize_url is idempotent on every input whose single
pass reaches a fixed point of the residual rewrites — its output carries
no further strippable surrounding whitespace, a non-empty netloc, and a
netloc that no longer ends in the scheme's default port.  (The
counterexample shows the port condition is necessary; inputs like
"http://a.com #" show the whitespace condition is, and "http://" the
netloc one.) -/
theorem normalize_idempotent_amended (u : Str)
    (hws : stripWS (normalize_url u) = normalize_url u)
    (hnl : (normalizeParts u).netloc ≠ [])
    (hport : stripDefaultPort (normalizeParts u).scheme
        (normalizeParts u).netloc = (normalizeParts u).netloc) :
    normalize_url (normalize_url u) = normalize_url u := by
  obtain ⟨hs, hn, hp0, hpc, hpe, hprc, hsemi, hqc, hfc⟩ := normalizeParts_wf u
  have hdec : normalize_url u = (normalizeParts u).scheme ++ ':' :: '/' ::
      '/' :: ((normalizeParts u).netloc ++ tailOf (normalizeParts u)) :=
    urlunparse_decomp _ hs hp0 hpe (Or.inl hnl)
  have htake : (normalize_url u).take 7 = httpSlashes ∨
      (normalize_url u).take 8 = httpsSlashes := by
    rcases hs with h | h
    · left
      rw [hdec, h]
      rfl
    · right
      rw [hdec, h]
      rfl
  have hclean : ∀ c ∈ (normalizeParts u).netloc ++ tailOf (normalizeParts u),
      ctlChar c = false := by
    intro c hc
    rcases List.mem_append.mp hc with h1 | h2
    · exact (hn c h1).2
    · unfold tailOf at h2
      rcases List.mem_append.mp h2 with h3 | h4
      · rcases List.mem_append.mp h3 with h5 | h6
        · by_cases hpa : (normalizeParts u).params = []
          · rw [if_neg (show ¬ (normalizeParts u).params ≠ [] by
              simp [hpa])] at h5
            exact (hpc c h5).2.2
          · rw [if_pos hpa] at h5
            rcases List.mem_append.mp h5 with h7 | h8
            · exact (hpc c h7).2.2
            · rcases List.mem_cons.mp h8 with h9 | h10
              · subst h9
                decide
              · exact (hprc c h10).2.2.2
        · by_cases hqe : (normalizeParts u).query = []
          · rw [if_neg (show ¬ (normalizeParts u).query ≠ [] by
              simp [hqe])] at h6
            cases h6
          · rw [if_pos hqe] at h6
            rcases List.mem_cons.mp h6 with h7 | h8
            · subst h7
              decide
            · exact (hqc c h8).2
      · by_cases hfe : (normalizeParts u).fragment = []
        · rw [if_neg (show ¬ (normalizeParts u).fragment ≠ [] by
            simp [hfe])] at h4
          cases h4
        · rw [if_pos hfe] at h4
          rcases List.mem_cons.mp h4 with h7 | h8
          · subst h7
            decide
          · exact hfc c h8
  have hparse : urlparse (normalize_url u) = normalizeParts u := by
    rw [hdec, urlparse_shaped _ _ hs hclean]
    exact pipeTail_recover _ ⟨hs, hn, hp0, hpc, hpe, hprc, hsemi, hqc, hfc⟩
  have hnp2 : normalizeParts (normalize_url u) = normalizeParts u := by
    show { urlparse (ensureScheme (stripWS (normalize_url u))) with
        netloc := stripDefaultPort
          (urlparse (ensureScheme (stripWS (normalize_url u)))).scheme
          (lowerL
            (urlparse (ensureScheme (stripWS (normalize_url u)))).netloc) } =
      normalizeParts u
    rw [hws, ensureScheme_of htake, hparse, normalizeParts_netloc_lower u,
      hport]
  show urlunparse (normalizeParts (normalize_url u)) = normalize_url u
  rw [hnp2]
  rfl

/-- Witness for the amended C7 at a concrete URL with an explicit
non-default port, mixed-case host and all URL components. -/
theorem normalize_idempotent_amended_witness :
    stripWS (normalize_url u7) = normalize_url u7 ∧
    (normalizeParts u7).netloc ≠ [] ∧
    stripDefaultPort (normalizeParts u7).scheme (normalizeParts u7).netloc =
      (normalizeParts u7).netloc ∧
    normalize_url (normalize_url u7) = normalize_url u7 := by
  refine ⟨by decide, by decide, by decide, ?_⟩
  exact normalize_idempotent_amended u7 (by decide) (by decide) (by decide)

end Urls
